import Mathlib

/-!
Verification of the `Box` container (src/index.js of i11e-box).

We build a shallow embedding in two layers:

* a pure value layer (`JTree`): JavaScript values as finite trees of
  plain objects and primitives, used for the path operations `pathMap`,
  `get`, `set`, `has`, `del`, tag handling, and diff/merge, which only
  read and rebuild values;
* a heap layer (`Heap`, `HVal`): JavaScript objects with reference
  identity, used for the constructor, whose aliasing behaviour
  (`this._payload = content` followed by an in-place `extend`) is only
  observable through references.

JavaScript numbers are modelled as integers (the claims only use integer
examples); arrays, functions and symbols are outside the modelled value
domain, so payloads are trees of plain objects and primitive scalars,
which is exactly the data model the specification describes.
-/

deriving instance DecidableEq for Except

namespace I11e

mutual

/-- A JavaScript value as a pure tree: primitive scalars (number,
string, boolean, `null`, `undefined`) and plain objects given as a field
list in insertion order.  Field keys in a JavaScript object are unique;
all operations below preserve that invariant. -/
inductive JTree where
  | vnum (n : Int)
  | vstr (s : String)
  | vbool (b : Bool)
  | vnull
  | vundefined
  | obj (fields : JFields)
deriving DecidableEq

/-- The ordered field list of a JavaScript object. -/
inductive JFields where
  | nil
  | cons (k : String) (v : JTree) (rest : JFields)
deriving DecidableEq

end

/-- Own-property lookup: `Object.prototype.hasOwnProperty` plus access.
Returns `none` when the key is absent (distinct from a present field
whose value is `undefined`). -/
def getOwnField : JFields → String → Option JTree
  | .nil, _ => none
  | .cons k v rest, key => if k = key then some v else getOwnField rest key

/-- `hasOwnProperty`. -/
def hasOwnField (fs : JFields) (key : String) : Bool :=
  (getOwnField fs key).isSome

/-- Property assignment `o[key] = v`: replaces the first matching field
in place (JavaScript keeps the original insertion position) or appends a
new field at the end. -/
def setOwnField : JFields → String → JTree → JFields
  | .nil, key, v => .cons key v .nil
  | .cons k w rest, key, v =>
      if k = key then .cons k v rest else .cons k w (setOwnField rest key v)

/-- `delete o[key]`. -/
def removeOwnField : JFields → String → JFields
  | .nil, _ => .nil
  | .cons k w rest, key =>
      if k = key then rest else .cons k w (removeOwnField rest key)

/-- JavaScript truthiness (`Boolean(v)` / `!!v`). -/
def truthy : JTree → Bool
  | .vnum n => decide (n ≠ 0)
  | .vstr s => decide (s ≠ "")
  | .vbool b => b
  | .vnull => false
  | .vundefined => false
  | .obj _ => true

/-- `String(v)` for the modelled values (plain objects stringify via the
default `Object.prototype.toString`). -/
def jsStringOfTree : JTree → String
  | .vnum n => toString n
  | .vstr s => s
  | .vbool b => if b then "true" else "false"
  | .vnull => "null"
  | .vundefined => "undefined"
  | .obj _ => "[object Object]"

/-- `String.prototype.split('.')`, written over the character list so it
evaluates inside the kernel.  `"".split('.')` is `[""]`. -/
def splitDotsAux : List Char → String → List String
  | [], acc => [acc]
  | c :: cs, acc =>
      if c = '.' then acc :: splitDotsAux cs "" else splitDotsAux cs (acc.push c)

def splitDots (s : String) : List String := splitDotsAux s.data ""

/-- `Array.prototype.join('.')` on a list of strings. -/
def joinDots : List String → String
  | [] => ""
  | [s] => s
  | s :: rest => s ++ "." ++ joinDots rest

/-- One element of `Array.prototype.join`: `null` and `undefined` join
as the empty string, every other element via `String(v)`. -/
def joinElem : JTree → String
  | .vnull => ""
  | .vundefined => ""
  | t => jsStringOfTree t

/-- `glossary.hasOwnProperty(key)` for an arbitrary glossary tag value:
only objects own the (non-index) string keys used here. -/
def jsHasOwnProperty : JTree → String → Bool
  | .obj fs, key => hasOwnField fs key
  | _, _ => false

/-- `glossary[key]`: property access, `undefined` when absent or when
the receiver is not an object. -/
def jsIndex : JTree → String → JTree
  | .obj fs, key => (getOwnField fs key).getD .vundefined
  | _, _ => .vundefined

/-- The loop body of `pathMap` (src/index.js lines 150-159): walk the
segments, keeping the dotted prefix joined so far; a segment `k` is
passed through unless the glossary is truthy and owns the dotted prefix
as a key, in which case the code pushes `glossary[k]` (the glossary's
value under the current segment, not under the prefix). -/
def pathMapLoop (glossary : JTree) (pre : List String) : List String → List JTree
  | [] => []
  | k :: rest =>
      let newKeys := joinDots (pre ++ [k])
      let ele :=
        if truthy glossary && jsHasOwnProperty glossary newKeys
        then jsIndex glossary k
        else .vstr k
      ele :: pathMapLoop glossary (pre ++ [k]) rest

/-- `pathMap` on an already-split segment list: run the loop and rejoin
with `'.'` (`newPath.join('.')`). -/
def pathMapOn (glossary : JTree) (keys : List String) : String :=
  joinDots ((pathMapLoop glossary [] keys).map joinElem)

/-- `pathMap` on a dotted string path (the non-array branch splits on
`'.'` first). -/
def pathMapStr (glossary : JTree) (path : String) : String :=
  pathMapOn glossary (splitDots path)

/-- `objectPath.get(obj, keys)` on a split key list: own-property walk;
traversal through `null`/`undefined`/primitives or a missing key yields
`undefined`. -/
def opGetKeys : JTree → List String → JTree
  | t, [] => t
  | .obj fs, k :: rest =>
      match getOwnField fs k with
      | none => .vundefined
      | some v => if rest = [] then v else opGetKeys v rest
  | _, _ :: _ => .vundefined

/-- `objectPath.get(obj, path)` with a string path: a falsy (empty)
path returns the whole object before any splitting. -/
def opGetStr (t : JTree) (path : String) : JTree :=
  if path = "" then t else opGetKeys t (splitDots path)

/-- `objectPath.set(obj, keys, v)`: intermediate containers are created
when the own property is `undefined`; assignment through an existing
primitive is silently absorbed. -/
def opSetKeys : JTree → List String → JTree → JTree
  | t, [], _ => t
  | .obj fs, [k], v => .obj (setOwnField fs k v)
  | .obj fs, k :: rest, v =>
      match getOwnField fs k with
      | none => .obj (setOwnField fs k (opSetKeys (.obj .nil) rest v))
      | some .vundefined => .obj (setOwnField fs k (opSetKeys (.obj .nil) rest v))
      | some cur => .obj (setOwnField fs k (opSetKeys cur rest v))
  | t, _ :: _, _ => t

/-- `objectPath.set(obj, path, v)` with a string path: a falsy path is a
no-op. -/
def opSetStr (t : JTree) (path : String) (v : JTree) : JTree :=
  if path = "" then t else opSetKeys t (splitDots path) v

/-- The segment loop of `objectPath.has`: walk own properties and
report `true` when every segment was an own key of its receiver,
whatever the final value; a primitive or `null`/`undefined` receiver
owns none of the keys used here (own index and `length` properties of
boxed strings are outside the modelled value domain). -/
def opHasWalk : JTree → List String → Bool
  | _, [] => true
  | .obj fs, k :: rest =>
      match getOwnField fs k with
      | some v => opHasWalk v rest
      | none => false
  | _, _ :: _ => false

/-- `objectPath.has(obj, path)` with a string path: the string is split
before the emptiness test (so `''` becomes the single segment `['']`),
after which an empty segment list would report the truthiness of the
object itself, and otherwise the own-property walk decides. -/
def opHasStr (t : JTree) (path : String) : Bool :=
  let ks := splitDots path
  if ks = [] then truthy t else opHasWalk t ks

/-- `objectPath.del(obj, keys)`. -/
def opDelKeys : JTree → List String → JTree
  | t, [] => t
  | .obj fs, [k] =>
      if hasOwnField fs k then .obj (removeOwnField fs k) else .obj fs
  | .obj fs, k :: rest =>
      match getOwnField fs k with
      | none => .obj fs
      | some v => .obj (setOwnField fs k (opDelKeys v rest))
  | t, _ :: _ => t

/-- `objectPath.del(obj, path)` with a string path: an empty path is a
no-op (`isEmpty('')`). -/
def opDelStr (t : JTree) (path : String) : JTree :=
  if path = "" then t else opDelKeys t (splitDots path)

/-- The Box at the pure value layer: its correlation identifier `_seq`,
its payload value, and its tag map.  The `_error` and `_results` slots
are constantly `null` and are consulted by none of the operations under
verification, so they are not carried here; construction-time state
(including those slots) lives in the heap layer below. -/
structure PBox where
  seq : String
  payload : JTree
  tags : JFields
deriving DecidableEq

/-- `getTag(name)`: the tag value when the name is an own key of
`_tags`, otherwise `null`. -/
def PBox.getTag (b : PBox) (name : String) : JTree :=
  (getOwnField b.tags name).getD .vnull

/-- `hasTag(name)`. -/
def PBox.hasTag (b : PBox) (name : String) : Bool :=
  hasOwnField b.tags name

/-- `removeTag(name)`. -/
def PBox.removeTag (b : PBox) (name : String) : PBox :=
  { b with tags := removeOwnField b.tags name }

/-- The entry rewrite `addTag` performs on a new glossary object: each
entry whose value, coerced to a property key, is an own key of the
existing glossary is replaced by the existing glossary's value under
that key. -/
def glossaryRewrite (glossary : JTree) : JFields → JFields
  | .nil => .nil
  | .cons w v rest =>
      let v2 :=
        if jsHasOwnProperty glossary (jsStringOfTree v)
        then jsIndex glossary (jsStringOfTree v)
        else v
      .cons w v2 (glossaryRewrite glossary rest)

/-- `addTag(name, tag)` (src/index.js lines 175-192): a generic store,
except that a new glossary object is first rewritten through the
existing glossary when one is present (truthy).  A non-object glossary
tag value has no own enumerable entries to rewrite, so it is stored as
given. -/
def PBox.addTag (b : PBox) (name : String) (tag : JTree) : PBox :=
  if name = "glossary" then
    let glossary := b.getTag "glossary"
    if truthy glossary then
      match tag with
      | .obj tfs => { b with tags := setOwnField b.tags name (.obj (glossaryRewrite glossary tfs)) }
      | t => { b with tags := setOwnField b.tags name t }
    else
      { b with tags := setOwnField b.tags name tag }
  else
    { b with tags := setOwnField b.tags name tag }

/-- `setTag` is an alias for `addTag`. -/
def PBox.setTag (b : PBox) (name : String) (tag : JTree) : PBox :=
  b.addTag name tag

/-- A path argument as the accessor methods receive it: an array of
segments, a string, or one of the other primitives the guards inspect. -/
inductive JSPath where
  | arr (segs : List String)
  | pstr (s : String)
  | pnum (n : Int)
  | pbool (b : Bool)
  | pnull
  | pundefined
deriving DecidableEq

/-- Truthiness of a path argument (`if (!path)`). -/
def JSPath.truthyB : JSPath → Bool
  | .arr _ => true
  | .pstr s => decide (s ≠ "")
  | .pnum n => decide (n ≠ 0)
  | .pbool b => b
  | .pnull => false
  | .pundefined => false

/-- `Array.prototype.join(',')`, the array-to-string coercion used when
an array path is concatenated after a scope prefix. -/
def joinCommas : List String → String
  | [] => ""
  | [s] => s
  | s :: rest => s ++ "," ++ joinCommas rest

/-- `String(path)` as performed by `scope + "." + path`. -/
def JSPath.coerceString : JSPath → String
  | .arr segs => joinCommas segs
  | .pstr s => s
  | .pnum n => toString n
  | .pbool b => if b then "true" else "false"
  | .pnull => "null"
  | .pundefined => "undefined"

/-- The error outcomes of a path operation: the explicit
`Error('Could not access path [null | undefined] in Box')`, and the
TypeError raised when `pathMap` calls `.split('.')` on a path that is
neither an array nor a string. -/
inductive JsErr where
  | invalidPath
  | typeError
deriving DecidableEq

/-- The scope step shared by `get`/`set`/`has`/`del`:
`var scope = this.getTag('scope'); if (scope) path = scope + "." + path`. -/
def PBox.scopedPath (b : PBox) (p : JSPath) : JSPath :=
  let scope := b.getTag "scope"
  if truthy scope then .pstr (jsStringOfTree scope ++ "." ++ p.coerceString) else p

/-- `this.pathMap(path)` on a path argument: arrays are used as the
segment list, strings are split on `'.'`, anything else has no `split`
method. -/
def PBox.mapPath (b : PBox) (p : JSPath) : Except JsErr String :=
  match p with
  | .arr segs => .ok (pathMapOn (b.getTag "glossary") segs)
  | .pstr s => .ok (pathMapStr (b.getTag "glossary") s)
  | _ => .error .typeError

/-- `get(path)` (src/index.js lines 103-112): fail fast on a falsy
path, apply the scope prefix, resolve through the glossary, then
delegate to `objectPath.get` over the payload. -/
def PBox.get (b : PBox) (p : JSPath) : Except JsErr JTree :=
  if p.truthyB then
    match b.mapPath (b.scopedPath p) with
    | .ok mp => .ok (opGetStr b.payload mp)
    | .error e => .error e
  else
    .error .invalidPath

/-- `set(path, value)` (src/index.js lines 89-96): scope prefix, then
glossary resolution, then `objectPath.set`; returns the box itself. -/
def PBox.set (b : PBox) (p : JSPath) (v : JTree) : Except JsErr PBox :=
  match b.mapPath (b.scopedPath p) with
  | .ok mp => .ok { b with payload := opSetStr b.payload mp v }
  | .error e => .error e

/-- Whitespace characters trimmed by `ToNumber` on strings. -/
def jsWhitespace (c : Char) : Bool :=
  c = ' ' || c = '\t' || c = '\n' || c = '\r'

/-- Does `ToNumber(s)` evaluate to `0`?  After trimming whitespace: the
empty string is `0`; an optionally-signed string of digits with an
optional fractional part is `0` exactly when every digit is `0`. -/
def jsStringToNumberIsZero (s : String) : Bool :=
  let cs := (s.data.dropWhile jsWhitespace).reverse.dropWhile jsWhitespace |>.reverse
  match cs with
  | [] => true
  | c :: rest =>
      let body := if c = '+' || c = '-' then rest else c :: rest
      let intPart := body.takeWhile Char.isDigit
      let afterInt := body.dropWhile Char.isDigit
      let ok :=
        match afterInt with
        | [] => decide (intPart ≠ [])
        | '.' :: fr => (decide (intPart ≠ []) || decide (fr ≠ [])) && fr.all Char.isDigit
        | _ => false
      ok && intPart.all (· = '0') &&
        (match afterInt with
         | '.' :: fr => fr.all (· = '0')
         | _ => true)

/-- JavaScript `v != false` (loose inequality against `false`).
`false` converts to the number `0`; numbers compare numerically,
strings via `ToNumber`, `null`/`undefined` are only loosely equal to
each other, and a plain object coerces to `"[object Object]"`, which is
`NaN` and therefore never equal to `0`. -/
def jsLooseNeqFalse : JTree → Bool
  | .vbool b => b
  | .vnum n => decide (n ≠ 0)
  | .vstr s => !jsStringToNumberIsZero s
  | .vnull => true
  | .vundefined => true
  | .obj _ => true

/-- `has(path)` (src/index.js lines 119-126): scope prefix, glossary
resolution, fetch via `objectPath.get`, then `!!v && v != false`. -/
def PBox.has (b : PBox) (p : JSPath) : Except JsErr Bool :=
  match b.mapPath (b.scopedPath p) with
  | .ok mp =>
      let v := opGetStr b.payload mp
      .ok (truthy v && jsLooseNeqFalse v)
  | .error e => .error e

/-- `del(path)` (src/index.js lines 133-141): scope prefix, glossary
resolution, then delete when `objectPath.has` reports the resolved path
present; returns the box itself. -/
def PBox.del (b : PBox) (p : JSPath) : Except JsErr PBox :=
  match b.mapPath (b.scopedPath p) with
  | .ok mp =>
      if opHasStr b.payload mp
      then .ok { b with payload := opDelStr b.payload mp }
      else .ok b
  | .error e => .error e

/-- The classification of a change record produced by the structural
differ: a new key, a deletion, or an edit.  Modelled from the spec: the
differ (the `deep-diff` collaborator) is out of repository scope; the
spec gives its contract in sections 4.5 and 6.  Array-change records
cannot arise because arrays are outside the modelled value domain. -/
inductive DKind where
  | N
  | D
  | E
deriving DecidableEq

/-- Modelled from the spec: a change record carries its kind, the key
path at which the change occurred, and the right-hand value needed to
replay it.  (A deletion record carries the deleted left-hand value in
`deep-diff`; `merge` never applies deletions, so that slot is recorded
here as `undefined`, and the left-hand slot of an edit is likewise
unused by replay.) -/
structure Change where
  kind : DKind
  path : List String
  rhs : JTree
deriving DecidableEq

/-- Modelled from the spec: the keys of `b` that `a` does not own each
produce a new-key record. -/
def diffNewR (p : List String) (afs : JFields) : JFields → List Change
  | .nil => []
  | .cons k bv rest =>
      (if hasOwnField afs k then [] else [⟨.N, p ++ [k], bv⟩]) ++ diffNewR p afs rest

mutual

/-- Modelled from the spec: the structural differ.  Identical values
produce no record; a defined value appearing where the left side was
`undefined` is a new-key record and the converse a deletion; two objects
are compared key by key, recording changes at the deepest differing
paths; any other differing pair is an edit carrying the right-hand
value. -/
def diffT (p : List String) (a b : JTree) : List Change :=
  if a = b then []
  else
    match a, b with
    | .vundefined, rb => [⟨.N, p, rb⟩]
    | _, .vundefined => [⟨.D, p, .vundefined⟩]
    | .obj afs, .obj bfs => diffOwnL p bfs afs ++ diffNewR p afs bfs
    | _, rb => [⟨.E, p, rb⟩]
termination_by structural a

/-- Modelled from the spec: the left-side pass of the differ over the
keys of `a`: a key missing from `b` is a deletion, a shared key is
compared recursively. -/
def diffOwnL (p : List String) (bfs : JFields) : JFields → List Change
  | .nil => []
  | .cons k av rest =>
      (match getOwnField bfs k with
       | some bv => diffT (p ++ [k]) av bv
       | none => [⟨.D, p ++ [k], .vundefined⟩]) ++ diffOwnL p bfs rest
termination_by structural afs => afs

end

/-- Modelled from the spec: the assignment arm of the differ's
apply-one-change operation (`applyChange` for new-key and edit records):
walk the path, materialising an empty object wherever an own property is
`undefined`, then assign the record's right-hand value at the last key.
An empty record path assigns under the coerced key `"undefined"`, and
assignment through a primitive is silently absorbed, as in the host
language. -/
def deepSet : JTree → List String → JTree → JTree
  | .obj fs, [], v => .obj (setOwnField fs "undefined" v)
  | t, [], _ => t
  | .obj fs, [k], v => .obj (setOwnField fs k v)
  | .obj fs, k :: rest, v =>
      match getOwnField fs k with
      | none => .obj (setOwnField fs k (deepSet (.obj .nil) rest v))
      | some .vundefined => .obj (setOwnField fs k (deepSet (.obj .nil) rest v))
      | some cur => .obj (setOwnField fs k (deepSet cur rest v))
  | t, _ :: _, _ => t

/-- Modelled from the spec: the deletion arm of apply-one-change (the
same walk, ending in `delete`).  `merge` skips deletion records, so this
arm is never reached from `merge`. -/
def deepDelete : JTree → List String → JTree
  | .obj fs, [] => .obj (removeOwnField fs "undefined")
  | t, [] => t
  | .obj fs, [k] => .obj (removeOwnField fs k)
  | .obj fs, k :: rest =>
      match getOwnField fs k with
      | none => .obj (setOwnField fs k (deepDelete (.obj .nil) rest))
      | some .vundefined => .obj (setOwnField fs k (deepDelete (.obj .nil) rest))
      | some cur => .obj (setOwnField fs k (deepDelete cur rest))
  | t, _ :: _ => t

/-- Modelled from the spec: `applyChange(target, source, record)`
realises one record on the target (the source argument is not consulted
on the record kinds that arise here). -/
def applyChangeT (t : JTree) (c : Change) : JTree :=
  match c.kind with
  | .D => deepDelete t c.path
  | _ => deepSet t c.path c.rhs

/-- `diff(box)` (src/index.js lines 237-239): the raw record sequence
between this payload and the other value. -/
def PBox.diff (b : PBox) (other : JTree) : List Change :=
  diffT [] b.payload other

/-- The payload produced by `merge` (src/index.js lines 246-263): fold
the record sequence over the payload, skipping records classified as
deletions and applying every other record. -/
def mergeT (a other : JTree) : JTree :=
  (diffT [] a other).foldl
    (fun acc c => if c.kind = .D then acc else applyChangeT acc c) a

/-- `merge(box)`: mutates the payload in place as described by `mergeT`
and returns the box itself. -/
def PBox.merge (b : PBox) (other : JTree) : PBox :=
  { b with payload := mergeT b.payload other }

/-- A heap-layer JavaScript value: a primitive, or a reference to a
heap object.  Reference identity is what makes the constructor's
aliasing observable. -/
inductive HVal where
  | hnum (n : Int)
  | hstr (s : String)
  | hbool (b : Bool)
  | hnull
  | hundefined
  | href (a : Nat)
deriving DecidableEq

/-- A heap object: its field list in insertion order, and whether the
`extend` module's `isPlainObject` accepts it.  Box instances are class
instances, which `isPlainObject` rejects; object literals are plain. -/
structure HObj where
  plain : Bool
  fields : List (String × HVal)
deriving DecidableEq

/-- The heap: an address-to-object association plus the next fresh
address. -/
structure Heap where
  objs : List (Nat × HObj)
  next : Nat
deriving DecidableEq

def lookupObjs : List (Nat × HObj) → Nat → Option HObj
  | [], _ => none
  | (x, o) :: rest, a => if x = a then some o else lookupObjs rest a

def Heap.getObj (h : Heap) (a : Nat) : Option HObj :=
  lookupObjs h.objs a

def Heap.alloc (h : Heap) (o : HObj) : Heap × Nat :=
  (⟨h.objs ++ [(h.next, o)], h.next + 1⟩, h.next)

def lookupHF : List (String × HVal) → String → Option HVal
  | [], _ => none
  | (k, v) :: rest, key => if k = key then some v else lookupHF rest key

/-- Field assignment: replace in place, or append a new field. -/
def setHF : List (String × HVal) → String → HVal → List (String × HVal)
  | [], key, v => [(key, v)]
  | (k, w) :: rest, key, v =>
      if k = key then (k, v) :: rest else (k, w) :: setHF rest key v

def setObjs : List (Nat × HObj) → Nat → String → HVal → List (Nat × HObj)
  | [], _, _, _ => []
  | (y, o) :: rest, a, key, v =>
      if y = a then (y, ⟨o.plain, setHF o.fields key v⟩) :: setObjs rest a key v
      else (y, o) :: setObjs rest a key v

def Heap.setField (h : Heap) (a : Nat) (key : String) (v : HVal) : Heap :=
  ⟨setObjs h.objs a key v, h.next⟩

def Heap.getField (h : Heap) (a : Nat) (key : String) : Option HVal :=
  match h.getObj a with
  | some o => lookupHF o.fields key
  | none => none

mutual

/-- A heap value read out as a tree, keeping at every object node the
address it was read from and its plainness: the form in which `extend`'s
source argument is consumed. -/
inductive PTree where
  | pnum (n : Int)
  | pstr (s : String)
  | pbool (b : Bool)
  | pnull
  | pundefined
  | pobj (a : Nat) (plain : Bool) (fields : PFields)
deriving DecidableEq

inductive PFields where
  | nil
  | cons (k : String) (v : PTree) (rest : PFields)
deriving DecidableEq

end

mutual

/-- Materialise a heap value as a `PTree`, spending one unit of fuel per
recursive step; `none` means the fuel ran out (in particular on cyclic
structures, on which the JavaScript deep `extend` would not terminate
either). -/
def matP (h : Heap) (fuel : Nat) (v : HVal) : Option PTree :=
  match fuel, v with
  | _, .hnum n => some (.pnum n)
  | _, .hstr s => some (.pstr s)
  | _, .hbool b => some (.pbool b)
  | _, .hnull => some .pnull
  | _, .hundefined => some .pundefined
  | 0, .href _ => none
  | fuel + 1, .href a =>
      (h.getObj a).bind (fun o =>
        (matFs h fuel o.fields).map (fun fs => .pobj a o.plain fs))
termination_by structural fuel

def matFs (h : Heap) (fuel : Nat) (l : List (String × HVal)) : Option PFields :=
  match fuel, l with
  | 0, _ => none
  | _ + 1, [] => some .nil
  | fuel + 1, (k, v) :: rest =>
      (matP h fuel v).bind (fun t =>
        (matFs h fuel rest).map (fun ts => .cons k t ts))
termination_by structural fuel

end

mutual

def PTree.toJ : PTree → JTree
  | .pnum n => .vnum n
  | .pstr s => .vstr s
  | .pbool b => .vbool b
  | .pnull => .vnull
  | .pundefined => .vundefined
  | .pobj _ _ fs => .obj fs.toJ

def PFields.toJ : PFields → JFields
  | .nil => .nil
  | .cons k v rest => .cons k v.toJ rest.toJ

end

mutual

/-- The addresses of all object nodes in a materialised tree. -/
def PTree.addrList : PTree → List Nat
  | .pobj a _ fs => a :: fs.addrList
  | _ => []

def PFields.addrList : PFields → List Nat
  | .nil => []
  | .cons _ v rest => v.addrList ++ rest.addrList

end

def PFields.hasKey : PFields → String → Bool
  | .nil, _ => false
  | .cons k _ rest, key => k = key || rest.hasKey key

mutual

/-- A well-shaped data tree as the specification's data model describes
payloads and tag values: every object node is a plain object, field
names are unique, and no field holds `undefined` (a field JavaScript's
`for..in`/`extend` machinery would silently drop). -/
def PTree.goodb : PTree → Bool
  | .pundefined => false
  | .pobj _ pl fs => pl && fs.goodb
  | _ => true

def PFields.goodb : PFields → Bool
  | .nil => true
  | .cons k v rest => !(rest.hasKey k) && v.goodb && rest.goodb

end

/-- The heap value a source-tree node contributes when it is copied by
reference or assigned directly. -/
def PTree.toH : PTree → HVal
  | .pnum n => .hnum n
  | .pstr s => .hstr s
  | .pbool b => .hbool b
  | .pnull => .hnull
  | .pundefined => .hundefined
  | .pobj a _ _ => .href a

/-- The `target !== copy` self-reference guard of `extend`. -/
def copyIsTarget (copy : PTree) (t : Nat) : Bool :=
  match copy with
  | .pobj a _ _ => a = t
  | _ => false

/-- The clone selection
`clone = src && isPlainObject(src) ? src : {}`: reuse the target's
current own value when it is a (truthy) reference to a plain object,
otherwise allocate a fresh empty object literal. -/
def cloneFor (h : Heap) (src : HVal) : Heap × Nat :=
  match src with
  | .href s =>
      match h.getObj s with
      | some o => if o.plain then (h, s) else h.alloc ⟨true, []⟩
      | none => h.alloc ⟨true, []⟩
  | _ => h.alloc ⟨true, []⟩

/-- The deep branch of the `extend` module
(`extend(true, target, source)`), consuming the source as the tree it
was materialised to.  For each source field: the self-reference guard
skips it; a plain-object value is deep-merged into the selected clone,
recursively, and the clone reference is assigned; an `undefined` value
is skipped; anything else (primitives and non-plain objects such as Box
instances) is assigned as a value, references included.  `extend` only
reads its source, and the constructor's uses either write to freshly
allocated objects or rewrite into the source the very values it already
holds, so consuming the source as a one-shot tree agrees with the
interleaved reads of the JavaScript loop on the acyclic structures
modelled here. -/
def extendT (h : Heap) (t : Nat) (fs : PFields) : Heap :=
  match fs with
  | .nil => h
  | .cons name copy rest =>
      if copyIsTarget copy t then extendT h t rest
      else
        match copy with
        | .pobj _ true cfs =>
            let cl := cloneFor h ((h.getField t name).getD .hundefined)
            let h2 := extendT cl.1 cl.2 cfs
            extendT (h2.setField t name (.href cl.2)) t rest
        | .pundefined => extendT h t rest
        | c => extendT (h.setField t name c.toH) t rest
termination_by structural fs

/-- `typeof content === 'object'` (true for references and for
`null`). -/
def hvalIsObjectType : HVal → Bool
  | .href _ => true
  | .hnull => true
  | _ => false

/-- `Box.isBox` (src/index.js lines 55-57): an object, not `null`,
whose `__type__` is loosely equal to the string `'box'`. -/
def Heap.isBoxV (h : Heap) (v : HVal) : Bool :=
  match v with
  | .href a =>
      match h.getField a "__type__" with
      | some (.hstr s) => s = "box"
      | _ => false
  | _ => false

/-- The own fields the constructor assigns before branching, in
insertion order (src/index.js lines 28-33). -/
def boxBaseFields (seq : String) (content tags : HVal) : List (String × HVal) :=
  [("__type__", .hstr "box"), ("_seq", .hstr seq), ("_error", .hnull),
   ("_payload", content), ("_tags", tags), ("_results", .hnull)]

/-- The constructor `new Box(content, tags)` (src/index.js lines
27-45), with the identity generator's output passed in as `seq`.  A Box
content is deep-merged into the new instance (`extend(true, this,
content)`); a non-null object content is deep-merged into itself
(`extend(true, this._payload, content)` with `this._payload === content`,
whose returned fresh target for a `null` content is discarded); any
other content is wrapped as `{ _v: content }`.  The result is the new
heap and the new Box's address; `none` only when the materialisation
fuel runs out. -/
def mkBoxH (h : Heap) (seq : String) (content tags : HVal) (fuel : Nat) :
    Option (Heap × Nat) :=
  let al := h.alloc ⟨false, boxBaseFields seq content tags⟩
  let h1 := al.1
  let b := al.2
  if h1.isBoxV content then
    match matP h1 fuel content with
    | some (.pobj _ _ cfs) => some (extendT h1 b cfs, b)
    | _ => none
  else if hvalIsObjectType content then
    match content with
    | .href a =>
        match matP h1 fuel content with
        | some (.pobj _ _ cfs) => some (extendT h1 a cfs, b)
        | _ => none
    | _ => some ((h1.alloc ⟨true, []⟩).1, b)
  else
    let ap := h1.alloc ⟨true, [("_v", content)]⟩
    some (ap.1.setField b "_payload" (.href ap.2), b)

/-- `new Box(content)` with the `tags` parameter defaulted to a fresh
empty object literal. -/
def newBoxH (h : Heap) (seq : String) (content : HVal) (fuel : Nat) :
    Option (Heap × Nat) :=
  let tg := h.alloc ⟨true, []⟩
  mkBoxH tg.1 seq content (.href tg.2) fuel

/-- The pure-layer value of a primitive heap value. -/
def hvalPrim? : HVal → Option JTree
  | .hnum n => some (.vnum n)
  | .hstr s => some (.vstr s)
  | .hbool b => some (.vbool b)
  | .hnull => some .vnull
  | .hundefined => some .vundefined
  | .href _ => none

/-- Read a constructed Box back as a pure-layer `PBox`: its `_seq`, its
payload value and its tags value (which must be an object). -/
def boxAsPure (h : Heap) (fuel : Nat) (b : Nat) : Option PBox :=
  match h.getField b "_seq", h.getField b "_payload", h.getField b "_tags" with
  | some (.hstr s), some pv, some tv =>
      match (matP h fuel pv).map PTree.toJ, (matP h fuel tv).map PTree.toJ with
      | some pj, some (.obj tf) => some ⟨s, pj, tf⟩
      | _, _ => none
  | _, _, _ => none

/-- Every allocated address is below the heap's next-fresh address. -/
def Heap.domLtB (h : Heap) : Bool :=
  h.objs.all (fun p => p.1 < h.next)

def hvalRefLt (v : HVal) (n : Nat) : Bool :=
  match v with
  | .href a => a < n
  | _ => true

/-- Every reference stored in any object points below the next-fresh
address. -/
def Heap.refsLtB (h : Heap) : Bool :=
  h.objs.all (fun p => p.2.fields.all (fun kv => hvalRefLt kv.2 h.next))

/-- Heap well-formedness: no dangling-by-construction addresses. -/
def Heap.wfB (h : Heap) : Bool :=
  h.domLtB && h.refsLtB

/-- Bookkeeping facts relating a heap to the heap an operation produced
at a target address `t`: well-formedness survives, the next-fresh
address never decreases, every non-plain object other than the target
is untouched, and no object disappears. -/
abbrev ExtendBook (h h2 : Heap) (t : Nat) : Prop :=
  h2.domLtB = true ∧
  h.next ≤ h2.next ∧
  (∀ b ob, h.getObj b = some ob → ob.plain = false → b ≠ t → h2.getObj b = some ob) ∧
  (∀ b, (h.getObj b).isSome = true → (h2.getObj b).isSome = true)

/-- A heap value holds a fresh deep copy of a source tree: it
materialises to the source's pure value, through object addresses that
all sit at or above the freshness baseline `n0`. -/
def FreshVal (h : Heap) (n0 : Nat) (hv : HVal) (t : PTree) : Prop :=
  ∃ fuel res, matP h fuel hv = some res ∧ res.toJ = t.toJ ∧ ∀ x ∈ res.addrList, n0 ≤ x

/-- A produced field list is, entry by entry, a fresh deep copy of a
source field list. -/
def FreshFields (h : Heap) (n0 : Nat) : List (String × HVal) → PFields → Prop
  | [], .nil => True
  | (k1, hv) :: out, .cons k2 t rest =>
      k1 = k2 ∧ FreshVal h n0 hv t ∧ FreshFields h n0 out rest
  | _, _ => False

/-- None of the source field names is an own field of the target. -/
def namesAbsent : PFields → List (String × HVal) → Bool
  | .nil, _ => true
  | .cons k _ rest, cfs => (lookupHF cfs k).isNone && namesAbsent rest cfs

/-- A concrete heap holding a canonical Box: a payload object `{a: 7}`
at address 0, an empty tags object at address 1, and the Box instance
itself at address 2. -/
def boxCopyFixture : Heap :=
  ⟨[(0, ⟨true, [("a", .hnum 7)]⟩), (1, ⟨true, []⟩),
    (2, ⟨false, boxBaseFields "sq0" (.href 0) (.href 1)⟩)], 3⟩

/-- A concrete fixture: payload `{a: {b: {c: 100}}}` with tag
`scope = "a.b"` (the spec's scoped-access example). -/
def scopeFixture : PBox :=
  ⟨"sq",
   .obj (.cons "a" (.obj (.cons "b" (.obj (.cons "c" (.vnum 100) .nil)) .nil)) .nil),
   .cons "scope" (.vstr "a.b") .nil⟩

/-- A concrete fixture: an empty payload with tag
`glossary = { x: "y" }`. -/
def glossFixture : PBox :=
  ⟨"sq", .obj .nil, .cons "glossary" (.obj (.cons "x" (.vstr "y") .nil)) .nil⟩

/-- A concrete fixture: payload `{a: 0}` with no tags. -/
def zeroFixture : PBox :=
  ⟨"sq", .obj (.cons "a" (.vnum 0) .nil), .nil⟩

/-! ## Theorems -/

theorem scopedPath_pstr_exists (b : PBox) (s : String) :
    ∃ s2, b.scopedPath (.pstr s) = .pstr s2 := by
  unfold PBox.scopedPath
  by_cases h : truthy (b.getTag "scope")
  · exact ⟨jsStringOfTree (b.getTag "scope") ++ "." ++ (JSPath.pstr s).coerceString, by simp [h]⟩
  · exact ⟨s, by simp [h]⟩

theorem scopedPath_of_scope (b : PBox) (sc : String) (hsc : b.getTag "scope" = .vstr sc)
    (hne : sc ≠ "") (p : JSPath) :
    b.scopedPath p = .pstr (sc ++ "." ++ p.coerceString) := by
  unfold PBox.scopedPath
  rw [hsc]
  simp [truthy, hne, jsStringOfTree]

theorem get_pstr (b : PBox) (s : String) (hs : s ≠ "") :
    ∃ s2, b.scopedPath (.pstr s) = .pstr s2 ∧
      b.get (.pstr s) = .ok (opGetStr b.payload (pathMapStr (b.getTag "glossary") s2)) := by
  obtain ⟨s2, h2⟩ := scopedPath_pstr_exists b s
  refine ⟨s2, h2, ?_⟩
  unfold PBox.get
  simp [JSPath.truthyB, hs, h2, PBox.mapPath]

theorem has_pstr (b : PBox) (s : String) :
    ∃ s2, b.scopedPath (.pstr s) = .pstr s2 ∧
      b.has (.pstr s) =
        .ok (truthy (opGetStr b.payload (pathMapStr (b.getTag "glossary") s2)) &&
             jsLooseNeqFalse (opGetStr b.payload (pathMapStr (b.getTag "glossary") s2))) := by
  obtain ⟨s2, h2⟩ := scopedPath_pstr_exists b s
  refine ⟨s2, h2, ?_⟩
  unfold PBox.has
  simp [h2, PBox.mapPath]

theorem opGetKeys_of_hasWalk_false : ∀ (ks : List String) (t : JTree),
    opHasWalk t ks = false → opGetKeys t ks = .vundefined
  | [], t, h => by simp [opHasWalk] at h
  | k :: rest, t, h => by
      match t with
      | .vnum n => rfl
      | .vstr s2 => rfl
      | .vbool b2 => rfl
      | .vnull => rfl
      | .vundefined => rfl
      | .obj fs =>
          rw [opHasWalk] at h
          rw [opGetKeys]
          cases hg : getOwnField fs k with
          | none => simp
          | some v =>
              rw [hg] at h
              simp only []
              rcases hrest : rest with _ | ⟨k2, rest2⟩
              · rw [hrest] at h
                simp [opHasWalk] at h
              · rw [hrest] at h
                have := opGetKeys_of_hasWalk_false (k2 :: rest2) v h
                simp [this]

/-- C1: the code evaluated at the failing input.  With a glossary whose
key is the dotted prefix `"a.b"` mapped to `"z"`, the claim (and the
spec) resolve the path `"a.b"` to `"a.z"`; `pathMap` instead pushes
`glossary["b"]` — the glossary's value under the current segment rather
than under the prefix key that was tested — which is `undefined` and
joins back as an empty segment, so the code resolves the path to
`"a."`.  Single-segment keys, where prefix and segment coincide (the
spec's own `glossary = { x: "a" }` example), behave as claimed. -/
theorem pathMap_prefix_key_failing_eval :
    pathMapStr (.obj (.cons "a.b" (.vstr "z") .nil)) "a.b" = "a." ∧
    pathMapStr (.obj (.cons "a.b" (.vstr "z") .nil)) "a.b" ≠ "a.z" ∧
    pathMapStr (.obj (.cons "x" (.vstr "a") .nil)) "x" = "a" ∧
    pathMapOn (.obj (.cons "a.b" (.vstr "z") .nil)) ["a", "b"] = "a." := by
  refine ⟨by decide, by decide, by decide, by decide⟩

/-- C10: `get` raises the invalid-path error for every falsy path
value — `null`, `undefined`, the empty string, the number `0`, and
`false` — because the guard tests the truthiness of the path. -/
theorem get_falsy_path_invalid (b : PBox) :
    b.get .pnull = .error .invalidPath ∧
    b.get .pundefined = .error .invalidPath ∧
    b.get (.pstr "") = .error .invalidPath ∧
    b.get (.pnum 0) = .error .invalidPath ∧
    b.get (.pbool false) = .error .invalidPath := by
  refine ⟨?_, ?_, ?_, ?_, ?_⟩ <;> simp [PBox.get, JSPath.truthyB]

theorem splitDotsAux_ne_nil : ∀ (cs : List Char) (acc : String), splitDotsAux cs acc ≠ []
  | [], acc => by simp [splitDotsAux]
  | c :: cs, acc => by
      rw [splitDotsAux]
      by_cases h : c = '.'
      · simp [h]
      · simpa [h] using splitDotsAux_ne_nil cs (acc.push c)

theorem splitDots_ne_nil (s : String) : splitDots s ≠ [] :=
  splitDotsAux_ne_nil s.data ""

/-- C8: `get` with a `null` or `undefined` path raises the invalid-path
error for every box state (the guard precedes any payload access),
while `get` on a well-formed (truthy string) path never fails: it
returns the value stored at the scope-prefixed, glossary-resolved path,
and returns `undefined` — not an error — when that resolved path does
not exist in the payload. -/
theorem get_invalid_and_missing_path (b : PBox) (s : String) (hs : s ≠ "") :
    b.get .pnull = .error .invalidPath ∧
    b.get .pundefined = .error .invalidPath ∧
    ∃ s2, b.scopedPath (.pstr s) = .pstr s2 ∧
      b.get (.pstr s) = .ok (opGetStr b.payload (pathMapStr (b.getTag "glossary") s2)) ∧
      (pathMapStr (b.getTag "glossary") s2 ≠ "" →
        opHasStr b.payload (pathMapStr (b.getTag "glossary") s2) = false →
        b.get (.pstr s) = .ok .vundefined) := by
  obtain ⟨s2, h2, hget⟩ := get_pstr b s hs
  refine ⟨rfl, rfl, s2, h2, hget, ?_⟩
  intro hmp hhas
  rw [hget]
  unfold opHasStr at hhas
  simp only [splitDots_ne_nil (pathMapStr (b.getTag "glossary") s2), if_neg] at hhas
  unfold opGetStr
  rw [if_neg hmp]
  rw [opGetKeys_of_hasWalk_false _ _ hhas]

theorem get_invalid_and_missing_path_witness :
    ("missing.path" : String) ≠ "" ∧
    zeroFixture.get (.pstr "missing.path") = .ok .vundefined := by
  refine ⟨by decide, ?_⟩
  obtain ⟨-, -, s2, h2, -, hmiss⟩ :=
    get_invalid_and_missing_path zeroFixture "missing.path" (by decide)
  have hs2 : s2 = "missing.path" := by
    have := h2
    rw [PBox.scopedPath] at this
    simp [zeroFixture, PBox.getTag, getOwnField, truthy] at this
    exact this.symm
  subst hs2
  exact hmiss (by decide) (by decide)

/-- C6: `has` returns exactly `Boolean(v) && v != false` for the value
`v` that `get` fetches at the same scope-prefixed, glossary-resolved
path; consequently every falsy stored value — `0`, the empty string,
`false` — as well as an absent path (fetched value `undefined`) makes
`has` report false. -/
theorem has_boolean_and_neq_false (b : PBox) (s : String) (v : JTree) (hs : s ≠ "")
    (hv : b.get (.pstr s) = .ok v) :
    b.has (.pstr s) = .ok (truthy v && jsLooseNeqFalse v) ∧
    ((v = .vnum 0 ∨ v = .vstr "" ∨ v = .vbool false ∨ v = .vundefined) →
      b.has (.pstr s) = .ok false) := by
  obtain ⟨s2, h2, hget⟩ := get_pstr b s hs
  obtain ⟨s3, h3, hhas⟩ := has_pstr b s
  rw [h2] at h3
  injection h3 with h3
  subst h3
  rw [hget] at hv
  injection hv with hv
  rw [hv] at hhas
  refine ⟨hhas, ?_⟩
  rintro (rfl | rfl | rfl | rfl) <;> simpa using hhas

theorem has_boolean_and_neq_false_witness :
    ("a" : String) ≠ "" ∧
    zeroFixture.get (.pstr "a") = .ok (.vnum 0) ∧
    zeroFixture.has (.pstr "a") = .ok false :=
  ⟨by decide, by decide,
   (has_boolean_and_neq_false zeroFixture "a" (.vnum 0) (by decide) (by decide)).2
     (Or.inl rfl)⟩

/-- C9: with the scope tag set to a non-empty string `sc`, each of
`get`, `set`, `has` and `del` prepends `sc` followed by `"."` to its
string path argument before glossary resolution and payload access. -/
theorem scope_prepends_path (b : PBox) (sc : String) (hsc : b.getTag "scope" = .vstr sc)
    (hne : sc ≠ "") (p : String) (v : JTree) :
    b.scopedPath (.pstr p) = .pstr (sc ++ "." ++ p) ∧
    (p ≠ "" → b.get (.pstr p) =
      .ok (opGetStr b.payload (pathMapStr (b.getTag "glossary") (sc ++ "." ++ p)))) ∧
    b.set (.pstr p) v =
      .ok { b with payload :=
              opSetStr b.payload (pathMapStr (b.getTag "glossary") (sc ++ "." ++ p)) v } ∧
    b.has (.pstr p) =
      .ok (truthy (opGetStr b.payload (pathMapStr (b.getTag "glossary") (sc ++ "." ++ p))) &&
           jsLooseNeqFalse
             (opGetStr b.payload (pathMapStr (b.getTag "glossary") (sc ++ "." ++ p)))) ∧
    b.del (.pstr p) =
      (if opHasStr b.payload (pathMapStr (b.getTag "glossary") (sc ++ "." ++ p))
       then .ok { b with payload :=
                    opDelStr b.payload (pathMapStr (b.getTag "glossary") (sc ++ "." ++ p)) }
       else .ok b) := by
  have hsp := scopedPath_of_scope b sc hsc hne (.pstr p)
  refine ⟨hsp, ?_, ?_, ?_, ?_⟩
  · intro hp
    unfold PBox.get
    simp [JSPath.truthyB, hp, hsp, PBox.mapPath, JSPath.coerceString]
  · unfold PBox.set
    simp [hsp, PBox.mapPath, JSPath.coerceString]
  · unfold PBox.has
    simp [hsp, PBox.mapPath, JSPath.coerceString]
  · unfold PBox.del
    simp [hsp, PBox.mapPath, JSPath.coerceString]

theorem scope_prepends_path_witness :
    scopeFixture.getTag "scope" = .vstr "a.b" ∧
    ("a.b" : String) ≠ "" ∧
    scopeFixture.scopedPath (.pstr "c") = .pstr "a.b.c" ∧
    scopeFixture.get (.pstr "c") = .ok (.vnum 100) := by
  refine ⟨by decide, by decide, ?_, by decide⟩
  exact (scope_prepends_path scopeFixture "a.b" (by decide) (by decide) "c" .vnull).1

/-- C7: `addTag("glossary", m)` with an existing (truthy) glossary
object first rewrites each entry of the new mapping whose value is an
own key of the existing glossary to that key's value in the existing
glossary, then stores the rewritten mapping as the glossary tag; with
no existing glossary tag the mapping is stored verbatim. -/
theorem addTag_glossary_layering (b : PBox) (g m : JFields)
    (hg : b.getTag "glossary" = .obj g) :
    b.addTag "glossary" (.obj m) =
      { b with tags := setOwnField b.tags "glossary" (.obj (glossaryRewrite (.obj g) m)) } ∧
    (∀ (gl : JTree) (w : String) (v : JTree) (rest : JFields),
      glossaryRewrite gl (.cons w v rest) =
        .cons w
          (if jsHasOwnProperty gl (jsStringOfTree v)
           then jsIndex gl (jsStringOfTree v) else v)
          (glossaryRewrite gl rest)) ∧
    (∀ (b2 : PBox) (t : JTree), truthy (b2.getTag "glossary") = false →
      b2.addTag "glossary" t = { b2 with tags := setOwnField b2.tags "glossary" t }) := by
  refine ⟨?_, ?_, ?_⟩
  · unfold PBox.addTag
    rw [hg]
    simp [truthy]
  · intro gl w v rest
    rfl
  · intro b2 t h
    unfold PBox.addTag
    simp [h]

theorem lookupHF_setHF_self : ∀ (fs : List (String × HVal)) (k : String) (v : HVal),
    lookupHF (setHF fs k v) k = some v
  | [], k, v => by simp [setHF, lookupHF]
  | (k2, w) :: rest, k, v => by
      rw [setHF]
      by_cases h : k2 = k
      · simp [h, lookupHF]
      · simp [h, lookupHF, lookupHF_setHF_self rest k v]

theorem lookupHF_setHF_ne : ∀ (fs : List (String × HVal)) (k : String) (v : HVal)
    (k2 : String), k2 ≠ k → lookupHF (setHF fs k v) k2 = lookupHF fs k2
  | [], k, v, k2, h => by
      simp only [setHF, lookupHF]
      rw [if_neg (fun hk => h hk.symm)]
  | (k3, w) :: rest, k, v, k2, h => by
      rw [setHF]
      by_cases h3 : k3 = k
      · subst h3
        have hne : ¬ k3 = k2 := fun hk => h hk.symm
        rw [if_pos rfl, lookupHF, lookupHF, if_neg hne, if_neg hne]
      · rw [if_neg h3, lookupHF, lookupHF]
        by_cases hk : k3 = k2
        · rw [if_pos hk, if_pos hk]
        · rw [if_neg hk, if_neg hk]
          exact lookupHF_setHF_ne rest k v k2 h

theorem lookupObjs_append_some : ∀ (l1 l2 : List (Nat × HObj)) (a : Nat) (o : HObj),
    lookupObjs l1 a = some o → lookupObjs (l1 ++ l2) a = some o
  | [], _, _, _, h => by simp [lookupObjs] at h
  | (x, o2) :: rest, l2, a, o, h => by
      rw [lookupObjs] at h
      rw [List.cons_append, lookupObjs]
      by_cases hx : x = a
      · simpa [hx] using h
      · rw [if_neg hx] at h ⊢
        exact lookupObjs_append_some rest l2 a o h

theorem lookupObjs_append_none : ∀ (l1 l2 : List (Nat × HObj)) (a : Nat),
    lookupObjs l1 a = none → lookupObjs (l1 ++ l2) a = lookupObjs l2 a
  | [], _, _, _ => by simp
  | (x, o2) :: rest, l2, a, h => by
      rw [lookupObjs] at h
      rw [List.cons_append, lookupObjs]
      by_cases hx : x = a
      · simp [hx] at h
      · rw [if_neg hx] at h ⊢
        exact lookupObjs_append_none rest l2 a h

theorem lookupObjs_none_of_lt : ∀ (l : List (Nat × HObj)) (n : Nat),
    (l.all (fun p => p.1 < n)) = true → lookupObjs l n = none
  | [], _, _ => rfl
  | (x, o) :: rest, n, h => by
      rw [List.all_cons] at h
      rw [lookupObjs]
      have hx : x < n := by simpa using (Bool.and_elim_left h)
      rw [if_neg (by omega)]
      exact lookupObjs_none_of_lt rest n (Bool.and_elim_right h)

theorem getObj_alloc_self (h : Heap) (o : HObj) (hwf : h.domLtB = true) :
    (h.alloc o).1.getObj h.next = some o := by
  unfold Heap.alloc Heap.getObj
  rw [lookupObjs_append_none h.objs _ _ (lookupObjs_none_of_lt h.objs h.next hwf)]
  simp [lookupObjs]

theorem getObj_alloc_lt (h : Heap) (o : HObj) (a : Nat) (ha : a < h.next) :
    (h.alloc o).1.getObj a = h.getObj a := by
  unfold Heap.alloc Heap.getObj
  cases hl : lookupObjs h.objs a with
  | some o2 => simpa using lookupObjs_append_some h.objs _ a o2 hl
  | none =>
      rw [lookupObjs_append_none h.objs _ a hl]
      simp [lookupObjs]
      omega

theorem lookupObjs_setObjs : ∀ (l : List (Nat × HObj)) (x : Nat) (k : String) (v : HVal)
    (a : Nat),
    lookupObjs (setObjs l x k v) a =
    (if a = x
     then (lookupObjs l a).map (fun o => ⟨o.plain, setHF o.fields k v⟩)
     else lookupObjs l a)
  | [], x, k, v, a => by simp [setObjs, lookupObjs]
  | (y, o) :: rest, x, k, v, a => by
      rw [setObjs]
      by_cases hyx : y = x
      · subst hyx
        rw [if_pos rfl, lookupObjs, lookupObjs]
        by_cases hya : y = a
        · rw [if_pos hya, if_pos hya, if_pos (by omega : a = y)]
          rfl
        · rw [if_neg hya, if_neg hya]
          exact lookupObjs_setObjs rest y k v a
      · rw [if_neg hyx, lookupObjs, lookupObjs]
        by_cases hya : y = a
        · rw [if_pos hya, if_pos hya, if_neg (by omega : ¬ a = x)]
        · rw [if_neg hya, if_neg hya]
          exact lookupObjs_setObjs rest x k v a

theorem getObj_setField (h : Heap) (x : Nat) (k : String) (v : HVal) (a : Nat) :
    (h.setField x k v).getObj a =
      (if a = x
       then (h.getObj a).map (fun o => ⟨o.plain, setHF o.fields k v⟩)
       else h.getObj a) := by
  unfold Heap.setField Heap.getObj
  exact lookupObjs_setObjs h.objs x k v a

theorem setField_next (h : Heap) (a : Nat) (k : String) (v : HVal) :
    (h.setField a k v).next = h.next := rfl

theorem alloc_next (h : Heap) (o : HObj) : (h.alloc o).1.next = h.next + 1 := rfl

theorem getObj_lt_next : ∀ (l : List (Nat × HObj)) (n : Nat) (b : Nat) (ob : HObj),
    l.all (fun p => p.1 < n) = true → lookupObjs l b = some ob → b < n
  | [], n, b, ob, _, hb => by simp [lookupObjs] at hb
  | (y, o) :: rest, n, b, ob, hall, hb => by
      rw [List.all_cons, Bool.and_eq_true] at hall
      rw [lookupObjs] at hb
      by_cases hy : y = b
      · have : y < n := by simpa using hall.1
        omega
      · rw [if_neg hy] at hb
        exact getObj_lt_next rest n b ob hall.2 hb

theorem Heap.getObj_lt (h : Heap) (b : Nat) (ob : HObj) (hwf : h.domLtB = true)
    (hb : h.getObj b = some ob) : b < h.next :=
  getObj_lt_next h.objs h.next b ob hwf hb

theorem domLtB_alloc (h : Heap) (o : HObj) (hwf : h.domLtB = true) :
    (h.alloc o).1.domLtB = true := by
  unfold Heap.domLtB at hwf ⊢
  unfold Heap.alloc
  simp only [List.all_append, List.all_cons, List.all_nil, Bool.and_eq_true,
    List.all_eq_true, decide_eq_true_eq] at hwf ⊢
  refine ⟨fun p hp => ?_, by omega, trivial⟩
  have := hwf p hp
  omega

theorem setObjs_all_lt (n : Nat) : ∀ (l : List (Nat × HObj)) (a : Nat)
    (k : String) (v : HVal),
    (setObjs l a k v).all (fun p => p.1 < n) = l.all (fun p => p.1 < n)
  | [], _, _, _ => rfl
  | (y, o) :: rest, a, k, v => by
      rw [setObjs]
      by_cases hy : y = a
      · rw [if_pos hy, List.all_cons, List.all_cons, setObjs_all_lt n rest a k v]
      · rw [if_neg hy, List.all_cons, List.all_cons, setObjs_all_lt n rest a k v]

theorem domLtB_setField (h : Heap) (a : Nat) (k : String) (v : HVal)
    (hwf : h.domLtB = true) : (h.setField a k v).domLtB = true := by
  unfold Heap.domLtB at hwf ⊢
  unfold Heap.setField
  rw [setObjs_all_lt]
  exact hwf

theorem cloneFor_domLtB (h : Heap) (src : HVal) (hwf : h.domLtB = true) :
    (cloneFor h src).1.domLtB = true := by
  unfold cloneFor
  match src with
  | .hnum n => exact domLtB_alloc h _ hwf
  | .hstr s => exact domLtB_alloc h _ hwf
  | .hbool b => exact domLtB_alloc h _ hwf
  | .hnull => exact domLtB_alloc h _ hwf
  | .hundefined => exact domLtB_alloc h _ hwf
  | .href s =>
      match hso : h.getObj s with
      | some o =>
          simp only [hso]
          by_cases hp : o.plain
          · rw [if_pos hp]
            exact hwf
          · rw [if_neg hp]
            exact domLtB_alloc h _ hwf
      | none =>
          simp only [hso]
          exact domLtB_alloc h _ hwf

theorem cloneFor_next_le (h : Heap) (src : HVal) :
    h.next ≤ (cloneFor h src).1.next := by
  unfold cloneFor
  match src with
  | .hnum n => simp [Heap.alloc]
  | .hstr s => simp [Heap.alloc]
  | .hbool b => simp [Heap.alloc]
  | .hnull => simp [Heap.alloc]
  | .hundefined => simp [Heap.alloc]
  | .href s =>
      match hso : h.getObj s with
      | some o =>
          simp only [hso]
          by_cases hp : o.plain
          · rw [if_pos hp]
          · rw [if_neg hp]
            simp [Heap.alloc]
      | none =>
          simp only [hso]
          simp [Heap.alloc]

theorem cloneFor_getObj_lt (h : Heap) (src : HVal) (a : Nat) (ha : a < h.next) :
    (cloneFor h src).1.getObj a = h.getObj a := by
  unfold cloneFor
  match src with
  | .hnum n => exact getObj_alloc_lt h _ a ha
  | .hstr s => exact getObj_alloc_lt h _ a ha
  | .hbool b => exact getObj_alloc_lt h _ a ha
  | .hnull => exact getObj_alloc_lt h _ a ha
  | .hundefined => exact getObj_alloc_lt h _ a ha
  | .href s =>
      match hso : h.getObj s with
      | some o =>
          simp only [hso]
          by_cases hp : o.plain
          · rw [if_pos hp]
          · rw [if_neg hp]
            exact getObj_alloc_lt h _ a ha
      | none =>
          simp only [hso]
          exact getObj_alloc_lt h _ a ha

theorem cloneFor_target_plain (h : Heap) (src : HVal) (hwf : h.domLtB = true) :
    ∃ o2, (cloneFor h src).1.getObj (cloneFor h src).2 = some o2 ∧ o2.plain = true ∧
      (cloneFor h src).2 < (cloneFor h src).1.next := by
  unfold cloneFor
  match src with
  | .hnum n => exact ⟨⟨true, []⟩, getObj_alloc_self h _ hwf, rfl, by simp [Heap.alloc]⟩
  | .hstr s => exact ⟨⟨true, []⟩, getObj_alloc_self h _ hwf, rfl, by simp [Heap.alloc]⟩
  | .hbool b => exact ⟨⟨true, []⟩, getObj_alloc_self h _ hwf, rfl, by simp [Heap.alloc]⟩
  | .hnull => exact ⟨⟨true, []⟩, getObj_alloc_self h _ hwf, rfl, by simp [Heap.alloc]⟩
  | .hundefined => exact ⟨⟨true, []⟩, getObj_alloc_self h _ hwf, rfl, by simp [Heap.alloc]⟩
  | .href s =>
      match hso : h.getObj s with
      | some o =>
          simp only [hso]
          by_cases hp : o.plain
          · rw [if_pos hp]
            exact ⟨o, hso, hp, h.getObj_lt s o hwf hso⟩
          · rw [if_neg hp]
            exact ⟨⟨true, []⟩, getObj_alloc_self h _ hwf, rfl, by simp [Heap.alloc]⟩
      | none =>
          simp only [hso]
          exact ⟨⟨true, []⟩, getObj_alloc_self h _ hwf, rfl, by simp [Heap.alloc]⟩

/-- The one-field unfolding of `extendT`. -/
theorem extendT_cons (h : Heap) (t : Nat) (name : String) (copy : PTree) (rest : PFields) :
    extendT h t (.cons name copy rest) =
      (if copyIsTarget copy t then extendT h t rest
       else
         match copy with
         | .pobj _ true cfs =>
             extendT ((extendT (cloneFor h ((h.getField t name).getD .hundefined)).1
                 (cloneFor h ((h.getField t name).getD .hundefined)).2 cfs).setField t name
               (.href (cloneFor h ((h.getField t name).getD .hundefined)).2)) t rest
         | .pundefined => extendT h t rest
         | c => extendT (h.setField t name c.toH) t rest) := by
  rw [extendT.eq_def]

/-- The step of `extendT_spec` for a field that is realised by a plain
`setField` on the target. -/
theorem extendBook_setField_step (rest : PFields) (h : Heap) (t : Nat) (name : String)
    (w : HVal) (hwf : h.domLtB = true)
    (hrest : ∀ h2 : Heap, h2.domLtB = true → ExtendBook h2 (extendT h2 t rest) t) :
    ExtendBook h (extendT (h.setField t name w) t rest) t := by
  have hw := domLtB_setField h t name w hwf
  obtain ⟨w1, w2, w3, w4⟩ := hrest (h.setField t name w) hw
  refine ⟨w1, ?_, ?_, ?_⟩
  · rw [setField_next] at w2
    exact w2
  · intro b ob hb hbp hbt
    refine w3 b ob ?_ hbp hbt
    rw [getObj_setField, if_neg hbt]
    exact hb
  · intro b hb
    refine w4 b ?_
    rw [getObj_setField]
    by_cases hbt : b = t
    · rw [if_pos hbt]
      simpa using hb
    · rw [if_neg hbt]
      exact hb

/-- The combined bookkeeping facts about one `extend` run: the heap
stays well-formed, the next-fresh address never decreases, every
non-plain object other than the target itself is untouched (in
particular a Box instance is never chosen as a clone, since clones are
always plain), and no object disappears. -/
theorem extendT_spec : ∀ (fs : PFields) (h : Heap) (t : Nat), h.domLtB = true →
    ExtendBook h (extendT h t fs) t
  | .nil, h, t, hwf =>
      ⟨hwf, le_refl _, fun b ob hb _ _ => hb, fun b hb => hb⟩
  | .cons name copy rest, h, t, hwf => by
      rw [extendT_cons]
      by_cases hguard : copyIsTarget copy t
      · rw [if_pos hguard]
        exact extendT_spec rest h t hwf
      · rw [if_neg hguard]
        match copy with
        | .pundefined =>
            exact extendT_spec rest h t hwf
        | .pnum n =>
            exact extendBook_setField_step rest h t name _ hwf
              (fun h2 => extendT_spec rest h2 t)
        | .pstr s =>
            exact extendBook_setField_step rest h t name _ hwf
              (fun h2 => extendT_spec rest h2 t)
        | .pbool b2 =>
            exact extendBook_setField_step rest h t name _ hwf
              (fun h2 => extendT_spec rest h2 t)
        | .pnull =>
            exact extendBook_setField_step rest h t name _ hwf
              (fun h2 => extendT_spec rest h2 t)
        | .pobj a2 false cfs =>
            exact extendBook_setField_step rest h t name _ hwf
              (fun h2 => extendT_spec rest h2 t)
        | .pobj a2 true cfs =>
            show ExtendBook h
              (extendT ((extendT (cloneFor h ((h.getField t name).getD .hundefined)).1
                  (cloneFor h ((h.getField t name).getD .hundefined)).2 cfs).setField t name
                (.href (cloneFor h ((h.getField t name).getD .hundefined)).2)) t rest) t
            generalize (h.getField t name).getD .hundefined = src
            obtain ⟨o2, ho2, ho2p, ho2lt⟩ := cloneFor_target_plain h src hwf
            have hcwf := cloneFor_domLtB h src hwf
            have hcle := cloneFor_next_le h src
            obtain ⟨h2wf, h2le, h2pres, h2dom⟩ :=
              extendT_spec cfs (cloneFor h src).1 (cloneFor h src).2 hcwf
            have h3wf := domLtB_setField _ t name (.href (cloneFor h src).2) h2wf
            obtain ⟨h4wf, h4le, h4pres, h4dom⟩ :=
              extendT_spec rest
                ((extendT (cloneFor h src).1 (cloneFor h src).2 cfs).setField t name
                  (.href (cloneFor h src).2)) t h3wf
            refine ⟨h4wf, ?_, ?_, ?_⟩
            · rw [setField_next] at h4le
              omega
            · intro b ob hb hbp hbt
              have hblt : b < h.next := h.getObj_lt b ob hwf hb
              have hb1 : (cloneFor h src).1.getObj b = some ob :=
                (cloneFor_getObj_lt h src b hblt).trans hb
              have hbcl : b ≠ (cloneFor h src).2 := by
                intro he
                rw [he, ho2] at hb1
                injection hb1 with hb1
                rw [hb1] at ho2p
                rw [hbp] at ho2p
                exact Bool.false_ne_true ho2p
              have hb2 := h2pres b ob hb1 hbp hbcl
              refine h4pres b ob ?_ hbp hbt
              rw [getObj_setField, if_neg hbt]
              exact hb2
            · intro b hb
              obtain ⟨ob, hob⟩ := Option.isSome_iff_exists.mp hb
              have hblt : b < h.next := h.getObj_lt b ob hwf hob
              have hb1 : (cloneFor h src).1.getObj b = some ob :=
                (cloneFor_getObj_lt h src b hblt).trans hob
              have hb2 := h2dom b (by rw [hb1]; rfl)
              refine h4dom b ?_
              rw [getObj_setField]
              by_cases hbt : b = t
              · rw [if_pos hbt]
                simpa using hb2
              · rw [if_neg hbt]
                exact hb2

mutual

theorem matP_agree (h h2 : Heap)
    (hag : ∀ x o, h.getObj x = some o → h2.getObj x = some o) :
    ∀ (fuel : Nat) (v : HVal) (t : PTree), matP h fuel v = some t → matP h2 fuel v = some t
  | fuel, .hnum n, t, heq => by simpa [matP] using heq
  | fuel, .hstr s, t, heq => by simpa [matP] using heq
  | fuel, .hbool b, t, heq => by simpa [matP] using heq
  | fuel, .hnull, t, heq => by simpa [matP] using heq
  | fuel, .hundefined, t, heq => by simpa [matP] using heq
  | 0, .href a, t, heq => by simp [matP] at heq
  | fuel + 1, .href a, t, heq => by
      rw [matP] at heq ⊢
      cases hgo : h.getObj a with
      | none => rw [hgo] at heq; simp at heq
      | some o =>
          rw [hgo, Option.some_bind] at heq
          rw [hag a o hgo, Option.some_bind]
          cases hfs : matFs h fuel o.fields with
          | none => rw [hfs] at heq; simp at heq
          | some fs =>
              rw [hfs] at heq
              rw [matFs_agree h h2 hag fuel o.fields fs hfs]
              exact heq
termination_by structural fuel => fuel

theorem matFs_agree (h h2 : Heap)
    (hag : ∀ x o, h.getObj x = some o → h2.getObj x = some o) :
    ∀ (fuel : Nat) (l : List (String × HVal)) (fs : PFields),
      matFs h fuel l = some fs → matFs h2 fuel l = some fs
  | 0, l, fs, heq => by simp [matFs] at heq
  | fuel + 1, [], fs, heq => by simpa [matFs] using heq
  | fuel + 1, (k, v) :: rest, fs, heq => by
      rw [matFs] at heq ⊢
      cases hv : matP h fuel v with
      | none => rw [hv] at heq; simp at heq
      | some tv =>
          rw [hv, Option.some_bind] at heq
          cases hrest : matFs h fuel rest with
          | none => rw [hrest] at heq; simp at heq
          | some trest =>
              rw [hrest] at heq
              rw [matP_agree h h2 hag fuel v tv hv, Option.some_bind,
                  matFs_agree h h2 hag fuel rest trest hrest]
              exact heq
termination_by structural fuel => fuel

end

theorem matP_href_obj (h : Heap) (fuel : Nat) (a : Nat) (t : PTree)
    (hm : matP h fuel (.href a) = some t) : ∃ o, h.getObj a = some o := by
  cases fuel with
  | zero => simp [matP] at hm
  | succ fuel =>
      rw [matP] at hm
      cases hgo : h.getObj a with
      | none => rw [hgo] at hm; simp at hm
      | some o => exact ⟨o, rfl⟩

theorem getObj_some_alloc (h : Heap) (o2 : HObj) (hwf : h.domLtB = true) :
    ∀ x o, h.getObj x = some o → (h.alloc o2).1.getObj x = some o := by
  intro x o hx
  rw [getObj_alloc_lt h o2 x (h.getObj_lt x o hwf hx)]
  exact hx

theorem get_underscore_v (seq : String) (jv : JTree) :
    (PBox.mk seq (.obj (.cons "_v" jv .nil)) .nil).get (.pstr "_v") = .ok jv := by
  unfold PBox.get
  rw [if_pos (by decide : JSPath.truthyB (.pstr "_v") = true)]
  have hsc : (PBox.mk seq (.obj (.cons "_v" jv .nil)) .nil).scopedPath (.pstr "_v") =
      .pstr "_v" := by
    unfold PBox.scopedPath PBox.getTag
    simp [getOwnField, truthy]
  rw [hsc]
  show Except.ok (opGetStr (.obj (.cons "_v" jv .nil))
    (pathMapStr ((PBox.mk seq (.obj (.cons "_v" jv .nil)) .nil).getTag "glossary") "_v")) = _
  have hgl : (PBox.mk seq (.obj (.cons "_v" jv .nil)) .nil).getTag "glossary" = .vnull := by
    unfold PBox.getTag
    simp [getOwnField]
  rw [hgl]
  rw [(by decide : pathMapStr .vnull "_v" = "_v")]
  unfold opGetStr
  rw [if_neg (by decide : ¬ ("_v" : String) = "")]
  rw [(by decide : splitDots "_v" = ["_v"])]
  rw [opGetKeys]
  simp [getOwnField]

/-- C2 counterexample: constructing a Box from `null` does not wrap it.
`typeof null === 'object'` sends the constructor into the container
branch, whose `extend(true, this._payload, content)` result (a fresh
empty object) is discarded, so the payload stays `null`, is a bare
scalar at rest, and `get('_v')` returns `undefined` rather than
`null`. -/
theorem box_null_payload_counterexample :
    ((newBoxH ⟨[], 0⟩ "s1" .hnull 5).map (fun r => r.1.getField r.2 "_payload") =
      some (some .hnull)) ∧
    (((newBoxH ⟨[], 0⟩ "s1" .hnull 5).bind (fun r => boxAsPure r.1 8 r.2)).map
        PBox.payload = some .vnull) ∧
    (JTree.vnull ≠ .obj (.cons "_v" .vnull .nil)) ∧
    (((newBoxH ⟨[], 0⟩ "s1" .hnull 5).bind (fun r => boxAsPure r.1 8 r.2)).map
        (fun pb => pb.get (.pstr "_v")) = some (.ok .vundefined)) ∧
    ((Except.ok JTree.vundefined : Except JsErr JTree) ≠ .ok .vnull) := by
  refine ⟨by decide, by decide, by decide, by decide, by decide⟩

/-- C2 amended: for every scalar whose `typeof` is not `'object'` —
numbers, strings, booleans and `undefined`, but not `null` —
construction wraps it: the payload of the new Box is the object
`{ _v: v }` (never a bare scalar), and `get('_v')` returns the value.
(`null` has `typeof 'object'`, falls into the container branch and is
not wrapped; see the counterexample.) -/
theorem box_scalar_payload_wrapped (seq : String) (v : HVal) (fuel : Nat)
    (hobj : hvalIsObjectType v = false) :
    ∃ (h3 : Heap) (b : Nat) (jv : JTree),
      hvalPrim? v = some jv ∧
      newBoxH ⟨[], 0⟩ seq v fuel = some (h3, b) ∧
      boxAsPure h3 3 b = some ⟨seq, .obj (.cons "_v" jv .nil), .nil⟩ ∧
      (PBox.mk seq (.obj (.cons "_v" jv .nil)) .nil).get (.pstr "_v") = .ok jv := by
  match v, hobj with
  | .hnum n, _ => exact ⟨_, _, _, rfl, rfl, rfl, get_underscore_v seq (.vnum n)⟩
  | .hstr s, _ => exact ⟨_, _, _, rfl, rfl, rfl, get_underscore_v seq (.vstr s)⟩
  | .hbool b2, _ => exact ⟨_, _, _, rfl, rfl, rfl, get_underscore_v seq (.vbool b2)⟩
  | .hundefined, _ => exact ⟨_, _, _, rfl, rfl, rfl, get_underscore_v seq .vundefined⟩

theorem box_scalar_payload_wrapped_witness :
    hvalIsObjectType (.hnum 5) = false ∧
    ∃ (h3 : Heap) (b : Nat) (jv : JTree),
      hvalPrim? (.hnum 5) = some jv ∧
      newBoxH ⟨[], 0⟩ "s1" (.hnum 5) 5 = some (h3, b) ∧
      boxAsPure h3 3 b = some ⟨"s1", .obj (.cons "_v" jv .nil), .nil⟩ ∧
      (PBox.mk "s1" (.obj (.cons "_v" jv .nil)) .nil).get (.pstr "_v") = .ok jv :=
  ⟨by decide, box_scalar_payload_wrapped "s1" (.hnum 5) 5 (by decide)⟩

theorem alloc_snd (h : Heap) (o : HObj) : (h.alloc o).2 = h.next := rfl

theorem isBoxV_eq_of_getObj (h h2 : Heap) (a : Nat) (hg : h2.getObj a = h.getObj a) :
    h2.isBoxV (.href a) = h.isBoxV (.href a) := by
  simp only [Heap.isBoxV, Heap.getField, hg]

theorem matP_href_shape (h : Heap) (fuel a : Nat) (t : PTree)
    (hm : matP h fuel (.href a) = some t) : ∃ pl tfs, t = .pobj a pl tfs := by
  cases fuel with
  | zero => simp [matP] at hm
  | succ fuel =>
      rw [matP] at hm
      cases hgo : h.getObj a with
      | none => rw [hgo] at hm; simp at hm
      | some o =>
          rw [hgo, Option.some_bind] at hm
          cases hfs : matFs h fuel o.fields with
          | none => rw [hfs] at hm; simp at hm
          | some fs =>
              rw [hfs] at hm
              injection hm with hm
              exact ⟨o.plain, fs, hm.symm⟩

/-- C3 counterexample: constructing a Box from the plain container
`c = { a: 1 }` (heap address 0) leaves `_payload` holding the very
reference to `c`; writing `a := 2` through the Box's payload reference
is then visible when `c` itself is read, so the payload does alias the
caller's object. -/
theorem box_container_alias_counterexample :
    ((newBoxH ⟨[(0, ⟨true, [("a", .hnum 1)]⟩)], 1⟩ "s1" (.href 0) 8).map
        (fun r => r.1.getField r.2 "_payload") = some (some (.href 0))) ∧
    ((newBoxH ⟨[(0, ⟨true, [("a", .hnum 1)]⟩)], 1⟩ "s1" (.href 0) 8).map
        (fun r => (r.1.getField 0 "a", (r.1.setField 0 "a" (.hnum 2)).getField 0 "a")) =
      some (some (.hnum 1), some (.hnum 2))) := by
  refine ⟨by decide, by decide⟩

/-- C3 amended: for every non-null, non-Box container `c`, the
constructor sets `this._payload = content` and then deep-merges `c`
into itself in place, so the new Box's `_payload` holds exactly the
reference to `c`: the payload aliases the caller's object, and a field
written through the Box's payload reference is read back through `c`'s
reference, which is the same address. -/
theorem box_container_payload_aliases (h : Heap) (seq : String) (a : Nat) (fuel : Nat)
    (t : PTree) (hwf : h.domLtB = true) (hnb : h.isBoxV (.href a) = false)
    (hmat : matP h fuel (.href a) = some t) :
    ∃ (h2 : Heap) (b : Nat),
      newBoxH h seq (.href a) fuel = some (h2, b) ∧
      h2.getField b "_payload" = some (.href a) ∧
      ∀ (k : String) (w : HVal), (h2.setField a k w).getField a k = some w := by
  obtain ⟨oa, hoa⟩ := matP_href_obj h fuel a t hmat
  have halt : a < h.next := h.getObj_lt a oa hwf hoa
  have h0wf : (h.alloc ⟨true, []⟩).1.domLtB = true := domLtB_alloc h _ hwf
  have hBwf : ((h.alloc ⟨true, []⟩).1.alloc
      ⟨false, boxBaseFields seq (.href a) (.href (h.alloc ⟨true, []⟩).2)⟩).1.domLtB = true :=
    domLtB_alloc _ _ h0wf
  have hpres : ∀ x o, h.getObj x = some o →
      ((h.alloc ⟨true, []⟩).1.alloc
        ⟨false, boxBaseFields seq (.href a) (.href (h.alloc ⟨true, []⟩).2)⟩).1.getObj x =
        some o := by
    intro x o hx
    exact getObj_some_alloc _ _ h0wf x o (getObj_some_alloc h _ hwf x o hx)
  have hnbB : ((h.alloc ⟨true, []⟩).1.alloc
      ⟨false, boxBaseFields seq (.href a) (.href (h.alloc ⟨true, []⟩).2)⟩).1.isBoxV
        (.href a) = false := by
    rw [isBoxV_eq_of_getObj h _ a ((hpres a oa hoa).trans hoa.symm)]
    exact hnb
  obtain ⟨pl, tfs, ht⟩ := matP_href_shape h fuel a t hmat
  subst ht
  have hmatB := matP_agree h _ hpres fuel (.href a) _ hmat
  have hbox : ((h.alloc ⟨true, []⟩).1.alloc
      ⟨false, boxBaseFields seq (.href a) (.href (h.alloc ⟨true, []⟩).2)⟩).1.getObj
        (h.alloc ⟨true, []⟩).1.next =
      some ⟨false, boxBaseFields seq (.href a) (.href (h.alloc ⟨true, []⟩).2)⟩ :=
    getObj_alloc_self _ _ h0wf
  have hba : (h.alloc ⟨true, []⟩).1.next ≠ a := by
    rw [alloc_next]
    omega
  obtain ⟨ewf, ele, epres, edom⟩ := extendT_spec tfs _ a hBwf
  refine ⟨extendT ((h.alloc ⟨true, []⟩).1.alloc
      ⟨false, boxBaseFields seq (.href a) (.href (h.alloc ⟨true, []⟩).2)⟩).1 a tfs,
    ((h.alloc ⟨true, []⟩).1.alloc
      ⟨false, boxBaseFields seq (.href a) (.href (h.alloc ⟨true, []⟩).2)⟩).2, ?_, ?_, ?_⟩
  · simp only [newBoxH, mkBoxH]
    rw [hnbB]
    rw [if_neg (by simp)]
    rw [if_pos (show hvalIsObjectType (.href a) = true from rfl)]
    rw [hmatB]
  · have hbox2 : (extendT ((h.alloc ⟨true, []⟩).1.alloc
        ⟨false, boxBaseFields seq (.href a) (.href (h.alloc ⟨true, []⟩).2)⟩).1 a tfs).getObj
          ((h.alloc ⟨true, []⟩).1.alloc
            ⟨false, boxBaseFields seq (.href a) (.href (h.alloc ⟨true, []⟩).2)⟩).2 =
        some ⟨false, boxBaseFields seq (.href a) (.href (h.alloc ⟨true, []⟩).2)⟩ :=
      epres _ _ hbox rfl hba
    unfold Heap.getField
    rw [hbox2]
    simp [boxBaseFields, lookupHF]
  · intro k w
    have haSome : (((h.alloc ⟨true, []⟩).1.alloc
        ⟨false, boxBaseFields seq (.href a) (.href (h.alloc ⟨true, []⟩).2)⟩).1.getObj
          a).isSome = true := by
      rw [hpres a oa hoa]
      rfl
    have h2Some := edom a haSome
    obtain ⟨oa2, hoa2⟩ := Option.isSome_iff_exists.mp h2Some
    unfold Heap.getField
    rw [getObj_setField, if_pos rfl, hoa2]
    simp [lookupHF_setHF_self]

theorem box_container_payload_aliases_witness :
    (Heap.mk [(0, ⟨true, [("a", .hnum 1)]⟩)] 1).domLtB = true ∧
    (Heap.mk [(0, ⟨true, [("a", .hnum 1)]⟩)] 1).isBoxV (.href 0) = false ∧
    matP ⟨[(0, ⟨true, [("a", .hnum 1)]⟩)], 1⟩ 8 (.href 0) =
      some (.pobj 0 true (.cons "a" (.pnum 1) .nil)) ∧
    ∃ (h2 : Heap) (b : Nat),
      newBoxH ⟨[(0, ⟨true, [("a", .hnum 1)]⟩)], 1⟩ "s1" (.href 0) 8 = some (h2, b) ∧
      h2.getField b "_payload" = some (.href 0) ∧
      ∀ (k : String) (w : HVal), (h2.setField 0 k w).getField 0 k = some w :=
  ⟨by decide, by decide, by decide,
   box_container_payload_aliases ⟨[(0, ⟨true, [("a", .hnum 1)]⟩)], 1⟩ "s1" 0 8
     (.pobj 0 true (.cons "a" (.pnum 1) .nil)) (by decide) (by decide) (by decide)⟩

theorem getOwnField_setOwnField_ne : ∀ (fs : JFields) (k2 : String) (w : JTree)
    (k : String), k ≠ k2 → getOwnField (setOwnField fs k2 w) k = getOwnField fs k
  | .nil, k2, w, k, h => by
      simp only [setOwnField, getOwnField]
      rw [if_neg (fun hk => h hk.symm)]
  | .cons k3 v rest, k2, w, k, h => by
      rw [setOwnField]
      by_cases h3 : k3 = k2
      · subst h3
        have hne : ¬ k3 = k := fun hk => h hk.symm
        rw [if_pos rfl, getOwnField, getOwnField, if_neg hne, if_neg hne]
      · rw [if_neg h3, getOwnField, getOwnField]
        by_cases hk : k3 = k
        · rw [if_pos hk, if_pos hk]
        · rw [if_neg hk, if_neg hk]
          exact getOwnField_setOwnField_ne rest k2 w k h

theorem deepSet_obj_head (fs : JFields) (k2 : String) (rest : List String) (v : JTree) :
    ∃ w, deepSet (.obj fs) (k2 :: rest) v = .obj (setOwnField fs k2 w) := by
  cases rest with
  | nil => exact ⟨v, rfl⟩
  | cons r rs =>
      cases hg : getOwnField fs k2 with
      | none => exact ⟨_, by rw [deepSet, hg] <;> simp⟩
      | some cur =>
          cases cur with
          | vundefined => exact ⟨_, by rw [deepSet, hg] <;> simp⟩
          | vnum n => exact ⟨_, by rw [deepSet, hg] <;> simp⟩
          | vstr s => exact ⟨_, by rw [deepSet, hg] <;> simp⟩
          | vbool b2 => exact ⟨_, by rw [deepSet, hg] <;> simp⟩
          | vnull => exact ⟨_, by rw [deepSet, hg] <;> simp⟩
          | obj fs2 => exact ⟨_, by rw [deepSet, hg] <;> simp⟩

theorem fold_changes_preserves (k : String) : ∀ (cs : List Change) (fs : JFields),
    (∀ c ∈ cs, c.kind = DKind.D ∨ ∃ k2 rest2, c.path = k2 :: rest2 ∧ k2 ≠ k) →
    ∃ fs2,
      cs.foldl (fun acc c => if c.kind = .D then acc else applyChangeT acc c) (.obj fs) =
        .obj fs2 ∧
      getOwnField fs2 k = getOwnField fs k
  | [], fs, _ => ⟨fs, rfl, rfl⟩
  | c :: cs, fs, h => by
      rw [List.foldl_cons]
      by_cases hd : c.kind = DKind.D
      · rw [if_pos hd]
        exact fold_changes_preserves k cs fs (fun c2 hc2 => h c2 (List.mem_cons_of_mem _ hc2))
      · rw [if_neg hd]
        rcases h c (List.mem_cons_self _ _) with hD | ⟨k2, rest2, hp, hne⟩
        · exact absurd hD hd
        · have happ : applyChangeT (.obj fs) c = deepSet (.obj fs) (k2 :: rest2) c.rhs := by
            unfold applyChangeT
            cases hk : c.kind with
            | D => exact absurd hk hd
            | N => rw [hp]
            | E => rw [hp]
          obtain ⟨w, hw⟩ := deepSet_obj_head fs k2 rest2 c.rhs
          rw [happ, hw]
          obtain ⟨fs2, hf2, hg2⟩ :=
            fold_changes_preserves k cs (setOwnField fs k2 w)
              (fun c2 hc2 => h c2 (List.mem_cons_of_mem _ hc2))
          refine ⟨fs2, hf2, ?_⟩
          rw [hg2]
          exact getOwnField_setOwnField_ne fs k2 w k (fun hk => hne hk.symm)

theorem diffNewR_shape (p : List String) (afs : JFields) : ∀ (l : JFields) (c : Change),
    c ∈ diffNewR p afs l → ∃ k2 bv, c = ⟨.N, p ++ [k2], bv⟩ ∧ hasOwnField l k2 = true
  | .nil, c, hc => by simp [diffNewR] at hc
  | .cons k bv rest, c, hc => by
      rw [diffNewR] at hc
      rcases List.mem_append.mp hc with h1 | h2
      · by_cases hk : hasOwnField afs k
        · rw [if_pos hk] at h1
          simp at h1
        · rw [if_neg hk] at h1
          simp at h1
          subst h1
          exact ⟨k, bv, rfl, by simp [hasOwnField, getOwnField]⟩
      · obtain ⟨k2, bv2, hceq, hhas⟩ := diffNewR_shape p afs rest c h2
        refine ⟨k2, bv2, hceq, ?_⟩
        unfold hasOwnField getOwnField
        by_cases hkk : k = k2
        · simp [hkk]
        · rw [if_neg hkk]
          exact hhas

theorem JTree.sizeOf_pos : ∀ a : JTree, 0 < sizeOf a := by
  intro a
  cases a <;> simp_arith

theorem diff_path_gen : ∀ n : Nat,
    (∀ (p : List String) (a b : JTree), sizeOf a ≤ n →
      ∀ c ∈ diffT p a b, ∃ suf, c.path = p ++ suf) ∧
    (∀ (p : List String) (bfs l : JFields), sizeOf l ≤ n →
      ∀ c ∈ diffOwnL p bfs l, ∃ suf, c.path = p ++ suf)
  | 0 => by
      constructor
      · intro p a b hsz
        have := JTree.sizeOf_pos a
        omega
      · intro p bfs l hsz
        cases l with
        | nil => intro c hc; simp [diffOwnL] at hc
        | cons k av rest => simp [JFields.cons.sizeOf_spec] at hsz
  | n + 1 => by
      obtain ⟨ihT, ihL⟩ := diff_path_gen n
      constructor
      · intro p a b hsz c hc
        cases a <;> cases b <;>
          (rw [diffT.eq_def] at hc
           split at hc
           · simp at hc
           · first
             | (rcases List.mem_append.mp hc with h1 | h2
                · refine ihL p _ _ ?_ c h1
                  simp only [JTree.obj.sizeOf_spec] at hsz
                  omega
                · obtain ⟨k2, bv, hceq, -⟩ := diffNewR_shape p _ _ c h2
                  exact ⟨[k2], by rw [hceq]⟩)
             | (simp at hc
                subst hc
                exact ⟨[], by simp⟩))
      · intro p bfs l hsz c hc
        cases l with
        | nil => simp [diffOwnL] at hc
        | cons k av rest =>
            rw [diffOwnL] at hc
            rcases List.mem_append.mp hc with h1 | h2
            · cases hg : getOwnField bfs k with
              | some bv =>
                  rw [hg] at h1
                  obtain ⟨suf2, hs⟩ := ihT (p ++ [k]) av bv
                    (by simp only [JFields.cons.sizeOf_spec] at hsz; omega) c h1
                  exact ⟨k :: suf2, by rw [hs, List.append_assoc]; rfl⟩
              | none =>
                  rw [hg] at h1
                  simp at h1
                  subst h1
                  exact ⟨[k], rfl⟩
            · exact ihL p bfs rest
                (by simp only [JFields.cons.sizeOf_spec] at hsz; omega) c h2

theorem diffT_path (p : List String) (a b : JTree) :
    ∀ c ∈ diffT p a b, ∃ suf, c.path = p ++ suf :=
  (diff_path_gen (sizeOf a)).1 p a b (le_refl _)

theorem diffOwnL_path (p : List String) (bfs l : JFields) (c : Change) :
    c ∈ diffOwnL p bfs l → ∃ suf, c.path = p ++ suf :=
  fun hc => (diff_path_gen (sizeOf l)).2 p bfs l (le_refl _) c hc

theorem diffOwnL_shape (p : List String) (bfs : JFields) : ∀ (l : JFields) (c : Change),
    c ∈ diffOwnL p bfs l →
      c.kind = DKind.D ∨
        ∃ k2 rest2, c.path = p ++ (k2 :: rest2) ∧ hasOwnField bfs k2 = true
  | .nil, c, hc => by simp [diffOwnL] at hc
  | .cons k av rest, c, hc => by
      rw [diffOwnL] at hc
      rcases List.mem_append.mp hc with h1 | h2
      · cases hg : getOwnField bfs k with
        | some bv =>
            rw [hg] at h1
            obtain ⟨suf2, hs⟩ := diffT_path (p ++ [k]) av bv c h1
            refine Or.inr ⟨k, suf2, ?_, ?_⟩
            · rw [hs, List.append_assoc]
              rfl
            · simp [hasOwnField, hg]
        | none =>
            rw [hg] at h1
            simp at h1
            subst h1
            exact Or.inl rfl
      · exact diffOwnL_shape p bfs rest c h2

theorem diffT_obj_shapes (afs bfs : JFields) :
    ∀ c ∈ diffT [] (.obj afs) (.obj bfs),
      c.kind = DKind.D ∨ ∃ k2 rest2, c.path = k2 :: rest2 ∧ hasOwnField bfs k2 = true := by
  intro c hc
  rw [diffT] at hc
  by_cases heq : (JTree.obj afs) = .obj bfs
  · rw [if_pos heq] at hc
    simp at hc
  · rw [if_neg heq] at hc
    rcases List.mem_append.mp hc with h1 | h2
    · rcases diffOwnL_shape [] bfs afs c h1 with hD | ⟨k2, rest2, hp, hh⟩
      · exact Or.inl hD
      · exact Or.inr ⟨k2, rest2, by simpa using hp, hh⟩
    · obtain ⟨k2, bv, hceq, hh⟩ := diffNewR_shape [] afs bfs c h2
      refine Or.inr ⟨k2, [], ?_, hh⟩
      simp [hceq]

/-- C4: `merge(other)` computes the diff of this payload against
`other` and folds every change record into the payload, skipping the
records classified as deletions and applying all others; the box itself
is returned with its `_seq` and tags untouched (the payload is mutated
in place); and, with an object `other`, every key this payload owns
that `other` does not own survives the merge with its value. -/
theorem merge_skips_deletions (b : PBox) (other : JTree) (afs bfs : JFields)
    (k : String) (v : JTree)
    (hpay : b.payload = .obj afs) (hoth : other = .obj bfs)
    (hin : getOwnField afs k = some v) (hmiss : hasOwnField bfs k = false) :
    (b.merge other).seq = b.seq ∧
    (b.merge other).tags = b.tags ∧
    (b.merge other).payload =
      (diffT [] b.payload other).foldl
        (fun acc c => if c.kind = .D then acc else applyChangeT acc c) b.payload ∧
    ∃ fs2, (b.merge other).payload = .obj fs2 ∧ getOwnField fs2 k = some v := by
  refine ⟨rfl, rfl, rfl, ?_⟩
  have hall : ∀ c ∈ diffT [] (JTree.obj afs) (.obj bfs),
      c.kind = DKind.D ∨ ∃ k2 rest2, c.path = k2 :: rest2 ∧ k2 ≠ k := by
    intro c hc
    rcases diffT_obj_shapes afs bfs c hc with hD | ⟨k2, rest2, hp, hh⟩
    · exact Or.inl hD
    · refine Or.inr ⟨k2, rest2, hp, ?_⟩
      intro hkk
      rw [hkk, hmiss] at hh
      exact Bool.false_ne_true hh
  obtain ⟨fs2, hf2, hg2⟩ :=
    fold_changes_preserves k (diffT [] (.obj afs) (.obj bfs)) afs hall
  refine ⟨fs2, ?_, ?_⟩
  · show mergeT b.payload other = JTree.obj fs2
    rw [hpay, hoth]
    unfold mergeT
    exact hf2
  · rw [hg2]
    exact hin

theorem merge_skips_deletions_witness :
    (PBox.mk "sq" (.obj (.cons "a" (.vnum 1) (.cons "b" (.vnum 2) .nil))) .nil).payload =
      .obj (.cons "a" (.vnum 1) (.cons "b" (.vnum 2) .nil)) ∧
    getOwnField (.cons "a" (.vnum 1) (.cons "b" (.vnum 2) .nil)) "a" = some (.vnum 1) ∧
    hasOwnField (.cons "c" (.vnum 3) .nil) "a" = false ∧
    (∃ fs2,
      ((PBox.mk "sq" (.obj (.cons "a" (.vnum 1) (.cons "b" (.vnum 2) .nil))) .nil).merge
        (.obj (.cons "c" (.vnum 3) .nil))).payload = .obj fs2 ∧
      getOwnField fs2 "a" = some (.vnum 1)) ∧
    ((PBox.mk "sq" (.obj (.cons "a" (.vnum 1) (.cons "b" (.vnum 2) .nil))) .nil).merge
        (.obj (.cons "a" (.vnum 10) (.cons "c" (.vnum 3) .nil)))).payload =
      .obj (.cons "a" (.vnum 10) (.cons "b" (.vnum 2) (.cons "c" (.vnum 3) .nil))) :=
  ⟨by decide, by decide, by decide,
   (merge_skips_deletions
      (PBox.mk "sq" (.obj (.cons "a" (.vnum 1) (.cons "b" (.vnum 2) .nil))) .nil)
      (.obj (.cons "c" (.vnum 3) .nil))
      (.cons "a" (.vnum 1) (.cons "b" (.vnum 2) .nil)) (.cons "c" (.vnum 3) .nil)
      "a" (.vnum 1) (by decide) (by decide) (by decide) (by decide)).2.2.2,
   by decide⟩

mutual

theorem matP_mono (h : Heap) : ∀ (f1 f2 : Nat) (v : HVal) (t : PTree),
    f1 ≤ f2 → matP h f1 v = some t → matP h f2 v = some t
  | f1, f2, .hnum n, t, _, heq => by simpa [matP] using heq
  | f1, f2, .hstr s, t, _, heq => by simpa [matP] using heq
  | f1, f2, .hbool b, t, _, heq => by simpa [matP] using heq
  | f1, f2, .hnull, t, _, heq => by simpa [matP] using heq
  | f1, f2, .hundefined, t, _, heq => by simpa [matP] using heq
  | 0, f2, .href a, t, _, heq => by simp [matP] at heq
  | f1 + 1, f2, .href a, t, hle, heq => by
      cases f2 with
      | zero => omega
      | succ f2 =>
          rw [matP] at heq ⊢
          cases hgo : h.getObj a with
          | none => rw [hgo] at heq; simp at heq
          | some o =>
              rw [hgo, Option.some_bind] at heq
              rw [Option.some_bind]
              cases hfs : matFs h f1 o.fields with
              | none => rw [hfs] at heq; simp at heq
              | some fs =>
                  rw [hfs] at heq
                  rw [matFs_mono h f1 f2 o.fields fs (by omega) hfs]
                  exact heq
termination_by structural f1 => f1

theorem matFs_mono (h : Heap) : ∀ (f1 f2 : Nat) (l : List (String × HVal)) (fs : PFields),
    f1 ≤ f2 → matFs h f1 l = some fs → matFs h f2 l = some fs
  | 0, f2, l, fs, _, heq => by simp [matFs] at heq
  | f1 + 1, f2, [], fs, hle, heq => by
      cases f2 with
      | zero => omega
      | succ f2 => simpa [matFs] using heq
  | f1 + 1, f2, (k, v) :: rest, fs, hle, heq => by
      cases f2 with
      | zero => omega
      | succ f2 =>
          rw [matFs] at heq ⊢
          cases hv : matP h f1 v with
          | none => rw [hv] at heq; simp at heq
          | some tv =>
              rw [hv, Option.some_bind] at heq
              cases hrest : matFs h f1 rest with
              | none => rw [hrest] at heq; simp at heq
              | some trest =>
                  rw [hrest] at heq
                  rw [matP_mono h f1 f2 v tv (by omega) hv, Option.some_bind,
                      matFs_mono h f1 f2 rest trest (by omega) hrest]
                  exact heq
termination_by structural f1 => f1

end

mutual

theorem matP_agree_on (hA hB : Heap) : ∀ (fuel : Nat) (v : HVal) (res : PTree),
    matP hA fuel v = some res →
    (∀ x ∈ res.addrList, hB.getObj x = hA.getObj x) →
    matP hB fuel v = some res
  | fuel, .hnum n, res, heq, _ => by simpa [matP] using heq
  | fuel, .hstr s, res, heq, _ => by simpa [matP] using heq
  | fuel, .hbool b, res, heq, _ => by simpa [matP] using heq
  | fuel, .hnull, res, heq, _ => by simpa [matP] using heq
  | fuel, .hundefined, res, heq, _ => by simpa [matP] using heq
  | 0, .href a, res, heq, _ => by simp [matP] at heq
  | fuel + 1, .href a, res, heq, hag => by
      rw [matP] at heq ⊢
      cases hgo : hA.getObj a with
      | none => rw [hgo] at heq; simp at heq
      | some o =>
          rw [hgo, Option.some_bind] at heq
          cases hfs : matFs hA fuel o.fields with
          | none => rw [hfs] at heq; simp at heq
          | some fs =>
              rw [hfs] at heq
              injection heq with heq
              subst heq
              have hga : hB.getObj a = some o := by
                rw [hag a (by simp [PTree.addrList]), hgo]
              rw [hga, Option.some_bind]
              rw [matFs_agree_on hA hB fuel o.fields fs hfs
                (fun x hx => hag x (by simp [PTree.addrList]; exact Or.inr hx))]
              rfl
termination_by structural fuel => fuel

theorem matFs_agree_on (hA hB : Heap) : ∀ (fuel : Nat) (l : List (String × HVal))
    (res : PFields),
    matFs hA fuel l = some res →
    (∀ x ∈ PFields.addrList res, hB.getObj x = hA.getObj x) →
    matFs hB fuel l = some res
  | 0, l, res, heq, _ => by simp [matFs] at heq
  | fuel + 1, [], res, heq, _ => by simpa [matFs] using heq
  | fuel + 1, (k, v) :: rest, res, heq, hag => by
      rw [matFs] at heq ⊢
      cases hv : matP hA fuel v with
      | none => rw [hv] at heq; simp at heq
      | some tv =>
          rw [hv, Option.some_bind] at heq
          cases hrest : matFs hA fuel rest with
          | none => rw [hrest] at heq; simp at heq
          | some trest =>
              rw [hrest] at heq
              injection heq with heq
              subst heq
              rw [matP_agree_on hA hB fuel v tv hv
                  (fun x hx => hag x (by simp [PFields.addrList]; exact Or.inl hx)),
                Option.some_bind,
                matFs_agree_on hA hB fuel rest trest hrest
                  (fun x hx => hag x (by simp [PFields.addrList]; exact Or.inr hx))]
              rfl
termination_by structural fuel => fuel

end

mutual

theorem matP_addrs_dom (h : Heap) : ∀ (fuel : Nat) (v : HVal) (res : PTree),
    matP h fuel v = some res → ∀ x ∈ res.addrList, ∃ o, h.getObj x = some o
  | fuel, .hnum n, res, heq => by
      intro x hx
      simp [matP] at heq
      subst heq
      simp [PTree.addrList] at hx
  | fuel, .hstr s, res, heq => by
      intro x hx
      simp [matP] at heq
      subst heq
      simp [PTree.addrList] at hx
  | fuel, .hbool b, res, heq => by
      intro x hx
      simp [matP] at heq
      subst heq
      simp [PTree.addrList] at hx
  | fuel, .hnull, res, heq => by
      intro x hx
      simp [matP] at heq
      subst heq
      simp [PTree.addrList] at hx
  | fuel, .hundefined, res, heq => by
      intro x hx
      simp [matP] at heq
      subst heq
      simp [PTree.addrList] at hx
  | 0, .href a, res, heq => by simp [matP] at heq
  | fuel + 1, .href a, res, heq => by
      rw [matP] at heq
      cases hgo : h.getObj a with
      | none => rw [hgo] at heq; simp at heq
      | some o =>
          rw [hgo, Option.some_bind] at heq
          cases hfs : matFs h fuel o.fields with
          | none => rw [hfs] at heq; simp at heq
          | some fs =>
              rw [hfs] at heq
              injection heq with heq
              subst heq
              intro x hx
              simp [PTree.addrList] at hx
              rcases hx with rfl | hx
              · exact ⟨o, hgo⟩
              · exact matFs_addrs_dom h fuel o.fields fs hfs x hx
termination_by structural fuel => fuel

theorem matFs_addrs_dom (h : Heap) : ∀ (fuel : Nat) (l : List (String × HVal))
    (res : PFields),
    matFs h fuel l = some res → ∀ x ∈ PFields.addrList res, ∃ o, h.getObj x = some o
  | 0, l, res, heq => by simp [matFs] at heq
  | fuel + 1, [], res, heq => by
      simp [matFs] at heq
      subst heq
      intro x hx
      simp [PFields.addrList] at hx
  | fuel + 1, (k, v) :: rest, res, heq => by
      rw [matFs] at heq
      cases hv : matP h fuel v with
      | none => rw [hv] at heq; simp at heq
      | some tv =>
          rw [hv, Option.some_bind] at heq
          cases hrest : matFs h fuel rest with
          | none => rw [hrest] at heq; simp at heq
          | some trest =>
              rw [hrest] at heq
              injection heq with heq
              subst heq
              intro x hx
              simp [PFields.addrList] at hx
              rcases hx with hx | hx
              · exact matP_addrs_dom h fuel v tv hv x hx
              · exact matFs_addrs_dom h fuel rest trest hrest x hx
termination_by structural fuel => fuel

end

theorem FreshVal_agree (hA hB : Heap) (n0 : Nat) (hv : HVal) (t : PTree)
    (hAwf : hA.domLtB = true)
    (hag : ∀ x, n0 ≤ x → x < hA.next → hB.getObj x = hA.getObj x) :
    FreshVal hA n0 hv t → FreshVal hB n0 hv t := by
  rintro ⟨fuel, res, hm, hj, hfr⟩
  refine ⟨fuel, res, ?_, hj, hfr⟩
  refine matP_agree_on hA hB fuel hv res hm ?_
  intro x hx
  obtain ⟨o, ho⟩ := matP_addrs_dom hA fuel hv res hm x hx
  exact hag x (hfr x hx) (hA.getObj_lt x o hAwf ho)

theorem FreshFields_matFs (h : Heap) (n0 : Nat) : ∀ (out : List (String × HVal))
    (fs : PFields), FreshFields h n0 out fs →
    ∃ fuel res, matFs h fuel out = some res ∧ res.toJ = fs.toJ ∧
      ∀ x ∈ PFields.addrList res, n0 ≤ x
  | [], .nil, _ =>
      ⟨1, .nil, by simp [matFs], rfl, by simp [PFields.addrList]⟩
  | [], .cons k t rest, hff => hff.elim
  | (k1, hv) :: out, .nil, hff => hff.elim
  | (k1, hv) :: out, .cons k2 t rest, hff => by
      obtain ⟨hk, ⟨f1, r1, hm1, hj1, ha1⟩, hrest⟩ := hff
      obtain ⟨f2, r2, hm2, hj2, ha2⟩ := FreshFields_matFs h n0 out rest hrest
      refine ⟨max f1 f2 + 1, .cons k1 r1 r2, ?_, ?_, ?_⟩
      · rw [matFs, matP_mono h f1 (max f1 f2) hv r1 (le_max_left f1 f2) hm1,
          Option.some_bind,
          matFs_mono h f2 (max f1 f2) out r2 (le_max_right f1 f2) hm2]
        rfl
      · subst hk
        show JFields.cons k1 r1.toJ r2.toJ = JFields.cons k1 t.toJ rest.toJ
        rw [hj1, hj2]
      · intro x hx
        show n0 ≤ x
        simp [PFields.addrList] at hx
        rcases hx with hx | hx
        · exact ha1 x hx
        · exact ha2 x hx

theorem lookupHF_none_append : ∀ (l1 l2 : List (String × HVal)) (k : String),
    lookupHF l1 k = none → lookupHF (l1 ++ l2) k = lookupHF l2 k
  | [], l2, k, _ => rfl
  | (k2, v) :: rest, l2, k, hl => by
      rw [lookupHF] at hl
      by_cases hk : k2 = k
      · rw [if_pos hk] at hl
        simp at hl
      · rw [if_neg hk] at hl
        rw [List.cons_append, lookupHF, if_neg hk]
        exact lookupHF_none_append rest l2 k hl

theorem setHF_append : ∀ (cfs : List (String × HVal)) (k : String) (v : HVal),
    lookupHF cfs k = none → setHF cfs k v = cfs ++ [(k, v)]
  | [], k, v, _ => rfl
  | (k2, w) :: rest, k, v, hl => by
      rw [lookupHF] at hl
      by_cases hk : k2 = k
      · rw [if_pos hk] at hl
        simp at hl
      · rw [if_neg hk] at hl
        rw [setHF, if_neg hk, List.cons_append, setHF_append rest k v hl]

theorem namesAbsent_nil : ∀ fs : PFields, namesAbsent fs [] = true
  | .nil => rfl
  | .cons k v rest => by
      rw [namesAbsent, lookupHF]
      simpa using namesAbsent_nil rest

theorem namesAbsent_snoc : ∀ (fs : PFields) (cfs : List (String × HVal)) (name : String)
    (hv : HVal), namesAbsent fs cfs = true → PFields.hasKey fs name = false →
    namesAbsent fs (cfs ++ [(name, hv)]) = true
  | .nil, _, _, _, _, _ => rfl
  | .cons k v rest, cfs, name, hv, habs, hkey => by
      rw [namesAbsent, Bool.and_eq_true] at habs
      rw [PFields.hasKey, Bool.or_eq_false_iff] at hkey
      rw [namesAbsent, Bool.and_eq_true]
      refine ⟨?_, namesAbsent_snoc rest cfs name hv habs.2 hkey.2⟩
      rw [lookupHF_none_append cfs [(name, hv)] k (Option.isNone_iff_eq_none.mp habs.1)]
      rw [lookupHF]
      rw [if_neg (fun hk => of_decide_eq_false hkey.1 hk.symm)]
      rfl

theorem FreshVal_mono (h : Heap) (n0 n1 : Nat) (hv : HVal) (t : PTree)
    (hle : n0 ≤ n1) : FreshVal h n1 hv t → FreshVal h n0 hv t := by
  rintro ⟨fuel, res, hm, hj, hfr⟩
  exact ⟨fuel, res, hm, hj, fun x hx => le_trans hle (hfr x hx)⟩

theorem FreshFields_mono : ∀ (h : Heap) (n0 n1 : Nat) (out : List (String × HVal))
    (fs : PFields), n0 ≤ n1 → FreshFields h n1 out fs → FreshFields h n0 out fs
  | h, n0, n1, [], .nil, _, _ => trivial
  | h, n0, n1, [], .cons k t r, _, hff => hff.elim
  | h, n0, n1, (k1, hv) :: out, .nil, _, hff => hff.elim
  | h, n0, n1, (k1, hv) :: out, .cons k2 t r, hle, hff =>
      ⟨hff.1, FreshVal_mono h n0 n1 hv t hle hff.2.1,
        FreshFields_mono h n0 n1 out r hle hff.2.2⟩

theorem matP_href_succ (h : Heap) (f : Nat) (a : Nat) :
    matP h (f + 1) (.href a) = (h.getObj a).bind (fun o =>
      (matFs h f o.fields).map (fun fs => .pobj a o.plain fs)) := by
  rw [matP]

theorem matFs_nil_succ (h : Heap) (f : Nat) : matFs h (f + 1) [] = some .nil := by
  rw [matFs]

theorem matFs_cons_succ (h : Heap) (f : Nat) (k : String) (v : HVal)
    (rest : List (String × HVal)) (tv : PTree) (trest : PFields)
    (hv : matP h f v = some tv) (hrest : matFs h f rest = some trest) :
    matFs h (f + 1) ((k, v) :: rest) = some (.cons k tv trest) := by
  rw [matFs, hv, Option.some_bind, hrest]
  rfl

/-- Materialising the six canonical own fields of a Box instance. -/
theorem matFs_boxBase (h : Heap) (f : Nat) (s0 : String) (pv tv : HVal) (pt qt : PTree)
    (hp : matP h f pv = some pt) (hq : matP h f tv = some qt) :
    matFs h (f + 7) (boxBaseFields s0 pv tv) =
      some (.cons "__type__" (.pstr "box") (.cons "_seq" (.pstr s0) (.cons "_error" .pnull
        (.cons "_payload" pt (.cons "_tags" qt (.cons "_results" .pnull .nil)))))) := by
  have e5 : matFs h (f + 2) [("_results", .hnull)] =
      some (.cons "_results" .pnull .nil) :=
    matFs_cons_succ h (f + 1) _ _ _ _ _ (by simp [matP]) (matFs_nil_succ h f)
  have e4 : matFs h (f + 3) [("_tags", tv), ("_results", .hnull)] =
      some (.cons "_tags" qt (.cons "_results" .pnull .nil)) :=
    matFs_cons_succ h (f + 2) _ _ _ _ _ (matP_mono h f (f + 2) tv qt (by omega) hq) e5
  have e3 : matFs h (f + 4) [("_payload", pv), ("_tags", tv), ("_results", .hnull)] =
      some (.cons "_payload" pt (.cons "_tags" qt (.cons "_results" .pnull .nil))) :=
    matFs_cons_succ h (f + 3) _ _ _ _ _ (matP_mono h f (f + 3) pv pt (by omega) hp) e4
  have e2 : matFs h (f + 5)
      [("_error", .hnull), ("_payload", pv), ("_tags", tv), ("_results", .hnull)] =
      some (.cons "_error" .pnull (.cons "_payload" pt
        (.cons "_tags" qt (.cons "_results" .pnull .nil)))) :=
    matFs_cons_succ h (f + 4) _ _ _ _ _ (by simp [matP]) e3
  have e1 : matFs h (f + 6) [("_seq", .hstr s0), ("_error", .hnull), ("_payload", pv),
      ("_tags", tv), ("_results", .hnull)] =
      some (.cons "_seq" (.pstr s0) (.cons "_error" .pnull (.cons "_payload" pt
        (.cons "_tags" qt (.cons "_results" .pnull .nil))))) :=
    matFs_cons_succ h (f + 5) _ _ _ _ _ (by simp [matP]) e2
  exact matFs_cons_succ h (f + 6) _ _ _ _ _ (by simp [matP]) e1

/-- The Box-content branch of the constructor: the content is detected
as a Box, materialised, and deep-merged over the new instance's own
fields. -/
theorem mkBoxH_box_branch (h : Heap) (seq : String) (content tags : HVal) (fuel : Nat)
    (cfs : PFields) (a0 : Nat) (pl : Bool)
    (hbox : ((h.alloc ⟨false, boxBaseFields seq content tags⟩).1).isBoxV content = true)
    (hmat : matP (h.alloc ⟨false, boxBaseFields seq content tags⟩).1 fuel content
      = some (.pobj a0 pl cfs)) :
    mkBoxH h seq content tags fuel =
      some (extendT (h.alloc ⟨false, boxBaseFields seq content tags⟩).1
        (h.alloc ⟨false, boxBaseFields seq content tags⟩).2 cfs,
        (h.alloc ⟨false, boxBaseFields seq content tags⟩).2) := by
  simp only [mkBoxH]
  rw [if_pos hbox, hmat]

/-- The step of `extend_fresh_spec` for a field realised by a plain
`setField` of an address-free value on the target. -/
theorem extend_fresh_prim_step (rest : PFields) (h : Heap) (c : Nat)
    (cfs : List (String × HVal)) (name : String) (w : HVal) (tw : PTree)
    (hwf : h.domLtB = true) (hc : h.getObj c = some ⟨true, cfs⟩)
    (habs1 : lookupHF cfs name = none)
    (hkey : PFields.hasKey rest name = false)
    (habs2 : namesAbsent rest cfs = true)
    (hfv : ∀ (h2 : Heap) (n : Nat), FreshVal h2 n w tw)
    (hIH : ∀ (h2 : Heap) (cfs2 : List (String × HVal)), h2.next = h.next →
        h2.domLtB = true → h2.getObj c = some ⟨true, cfs2⟩ →
        namesAbsent rest cfs2 = true →
        (extendT h2 c rest).domLtB = true ∧ h2.next ≤ (extendT h2 c rest).next ∧
        (∀ b, b ≠ c → b < h2.next → (extendT h2 c rest).getObj b = h2.getObj b) ∧
        ∃ out, (extendT h2 c rest).getObj c = some ⟨true, cfs2 ++ out⟩ ∧
          FreshFields (extendT h2 c rest) h2.next out rest) :
    (extendT (h.setField c name w) c rest).domLtB = true ∧
    h.next ≤ (extendT (h.setField c name w) c rest).next ∧
    (∀ b, b ≠ c → b < h.next →
      (extendT (h.setField c name w) c rest).getObj b = h.getObj b) ∧
    ∃ out, (extendT (h.setField c name w) c rest).getObj c = some ⟨true, cfs ++ out⟩ ∧
      FreshFields (extendT (h.setField c name w) c rest) h.next out
        (.cons name tw rest) := by
  have h3wf := domLtB_setField h c name w hwf
  have h3c : (h.setField c name w).getObj c = some ⟨true, cfs ++ [(name, w)]⟩ := by
    rw [getObj_setField, if_pos rfl, hc]
    show some (⟨true, setHF cfs name w⟩ : HObj) = some ⟨true, cfs ++ [(name, w)]⟩
    rw [setHF_append cfs name w habs1]
  obtain ⟨h4wf, h4le, h4pres, out2, h4c, h4ff⟩ :=
    hIH (h.setField c name w) (cfs ++ [(name, w)]) (setField_next h c name w) h3wf h3c
      (namesAbsent_snoc rest cfs name w habs2 hkey)
  refine ⟨h4wf, ?_, ?_, (name, w) :: out2, ?_, ?_⟩
  · rw [setField_next] at h4le
    exact h4le
  · intro b hbc hblt
    rw [h4pres b hbc (by rw [setField_next]; exact hblt), getObj_setField, if_neg hbc]
  · rw [h4c, List.append_assoc]
    rfl
  · show name = name ∧ FreshVal _ h.next w tw ∧
      FreshFields (extendT (h.setField c name w) c rest) h.next out2 rest
    refine ⟨rfl, hfv _ _, ?_⟩
    rw [show h.next = (h.setField c name w).next from rfl]
    exact h4ff

/-- One `extend(true, target, source)` run on a plain target none of
whose own field names clashes with the source's: the heap stays
well-formed, the next-fresh address never decreases, every object other
than the target that existed before is untouched, and the target gains,
appended in source order, a field per source field holding a fresh deep
copy of it — a value that materialises to the same pure tree through
addresses allocated at or after the call (hence disjoint from every
pre-existing object). -/
theorem extend_fresh_spec : ∀ (fs : PFields) (h : Heap) (c : Nat)
    (cfs : List (String × HVal)) (n0 : Nat),
    h.domLtB = true →
    h.getObj c = some ⟨true, cfs⟩ →
    n0 ≤ c →
    n0 ≤ h.next →
    (∀ x ∈ PFields.addrList fs, x < n0) →
    PFields.goodb fs = true →
    namesAbsent fs cfs = true →
    (extendT h c fs).domLtB = true ∧
    h.next ≤ (extendT h c fs).next ∧
    (∀ b, b ≠ c → b < h.next → (extendT h c fs).getObj b = h.getObj b) ∧
    ∃ out, (extendT h c fs).getObj c = some ⟨true, cfs ++ out⟩ ∧
      FreshFields (extendT h c fs) h.next out fs
  | .nil, h, c, cfs, n0, hwf, hc, _, _, _, _, _ =>
      ⟨hwf, le_refl _, fun b _ _ => rfl, [],
        by rw [List.append_nil]; exact hc, trivial⟩
  | .cons name copy rest, h, c, cfs, n0, hwf, hc, hn0c, hn0n, haddr, hgood, habs => by
      have hclt : c < h.next := h.getObj_lt c _ hwf hc
      rw [PFields.goodb, Bool.and_eq_true, Bool.and_eq_true] at hgood
      rw [namesAbsent, Bool.and_eq_true] at habs
      have habs1 : lookupHF cfs name = none := Option.isNone_iff_eq_none.mp habs.1
      have hkeyf : PFields.hasKey rest name = false := by
        have hx := hgood.1.1
        simpa using hx
      have haddrc : ∀ x ∈ PTree.addrList copy, x < n0 := fun x hx =>
        haddr x (by rw [PFields.addrList]; exact List.mem_append_left _ hx)
      have haddrr : ∀ x ∈ PFields.addrList rest, x < n0 := fun x hx =>
        haddr x (by rw [PFields.addrList]; exact List.mem_append_right _ hx)
      have hIH : ∀ (h2 : Heap) (cfs2 : List (String × HVal)), h2.next = h.next →
          h2.domLtB = true → h2.getObj c = some ⟨true, cfs2⟩ →
          namesAbsent rest cfs2 = true →
          (extendT h2 c rest).domLtB = true ∧ h2.next ≤ (extendT h2 c rest).next ∧
          (∀ b, b ≠ c → b < h2.next → (extendT h2 c rest).getObj b = h2.getObj b) ∧
          ∃ out, (extendT h2 c rest).getObj c = some ⟨true, cfs2 ++ out⟩ ∧
            FreshFields (extendT h2 c rest) h2.next out rest :=
        fun h2 cfs2 hnext hwf2 hc2 habs2 =>
          extend_fresh_spec rest h2 c cfs2 n0 hwf2 hc2 hn0c
            (by rw [hnext]; exact hn0n) haddrr hgood.2 habs2
      match copy with
      | .pundefined => exact absurd hgood.1.2 (by simp [PTree.goodb])
      | .pobj a2 false sfs => exact absurd hgood.1.2 (by simp [PTree.goodb])
      | .pnum n =>
          rw [extendT_cons, if_neg (by simp [copyIsTarget])]
          exact extend_fresh_prim_step rest h c cfs name (.hnum n) (.pnum n) hwf hc
            habs1 hkeyf habs.2
            (fun h2 m => ⟨0, .pnum n, rfl, rfl, by simp [PTree.addrList]⟩) hIH
      | .pstr s =>
          rw [extendT_cons, if_neg (by simp [copyIsTarget])]
          exact extend_fresh_prim_step rest h c cfs name (.hstr s) (.pstr s) hwf hc
            habs1 hkeyf habs.2
            (fun h2 m => ⟨0, .pstr s, rfl, rfl, by simp [PTree.addrList]⟩) hIH
      | .pbool b2 =>
          rw [extendT_cons, if_neg (by simp [copyIsTarget])]
          exact extend_fresh_prim_step rest h c cfs name (.hbool b2) (.pbool b2) hwf hc
            habs1 hkeyf habs.2
            (fun h2 m => ⟨0, .pbool b2, rfl, rfl, by simp [PTree.addrList]⟩) hIH
      | .pnull =>
          rw [extendT_cons, if_neg (by simp [copyIsTarget])]
          exact extend_fresh_prim_step rest h c cfs name .hnull .pnull hwf hc
            habs1 hkeyf habs.2
            (fun h2 m => ⟨0, .pnull, rfl, rfl, by simp [PTree.addrList]⟩) hIH
      | .pobj a2 true sfs =>
          have ha2 : a2 < n0 :=
            haddrc a2 (by rw [PTree.addrList]; exact List.mem_cons_self _ _)
          have hsaddr : ∀ x ∈ PFields.addrList sfs, x < n0 := fun x hx =>
            haddrc x (by rw [PTree.addrList]; exact List.mem_cons_of_mem _ hx)
          have hsgood : PFields.goodb sfs = true := by
            have hx := hgood.1.2
            simpa [PTree.goodb] using hx
          have hgd : (h.getField c name).getD .hundefined = .hundefined := by
            simp only [Heap.getField, hc, habs1]
            rfl
          have hcl : cloneFor h ((h.getField c name).getD .hundefined) = h.alloc ⟨true, []⟩ := by
            rw [hgd]
            rfl
          have hstep : extendT h c (.cons name (.pobj a2 true sfs) rest) =
              extendT ((extendT (h.alloc ⟨true, []⟩).1 h.next sfs).setField c name
                (.href h.next)) c rest := by
            rw [extendT_cons, if_neg (by simp [copyIsTarget]; omega), hcl]
            rfl
          rw [hstep]
          obtain ⟨h2wf, h2le, h2pres, out1, h2c', h2ff⟩ :=
            extend_fresh_spec sfs (h.alloc ⟨true, []⟩).1 h.next [] n0
              (domLtB_alloc h _ hwf) (getObj_alloc_self h _ hwf) hn0n
              (by rw [alloc_next]; omega) hsaddr hsgood (namesAbsent_nil sfs)
          rw [alloc_next] at h2le
          have h2c : (extendT (h.alloc ⟨true, []⟩).1 h.next sfs).getObj c =
              some ⟨true, cfs⟩ := by
            rw [h2pres c (by omega) (by rw [alloc_next]; omega),
              getObj_alloc_lt h _ c hclt]
            exact hc
          have h3wf : ((extendT (h.alloc ⟨true, []⟩).1 h.next sfs).setField c name
              (.href h.next)).domLtB = true := domLtB_setField _ c name _ h2wf
          have h3c : ((extendT (h.alloc ⟨true, []⟩).1 h.next sfs).setField c name
              (.href h.next)).getObj c = some ⟨true, cfs ++ [(name, .href h.next)]⟩ := by
            rw [getObj_setField, if_pos rfl, h2c]
            show some (⟨true, setHF cfs name (.href h.next)⟩ : HObj) = _
            rw [setHF_append cfs name _ habs1]
          obtain ⟨h4wf, h4le, h4pres, out2, h4c, h4ff⟩ :=
            extend_fresh_spec rest
              ((extendT (h.alloc ⟨true, []⟩).1 h.next sfs).setField c name (.href h.next))
              c (cfs ++ [(name, .href h.next)]) n0 h3wf h3c hn0c
              (by rw [setField_next]; omega) haddrr hgood.2
              (namesAbsent_snoc rest cfs name _ habs.2 hkeyf)
          refine ⟨h4wf, ?_, ?_, (name, .href h.next) :: out2, ?_, ?_⟩
          · rw [setField_next] at h4le
            omega
          · intro b hbc hblt
            rw [h4pres b hbc (by rw [setField_next]; omega), getObj_setField, if_neg hbc,
              h2pres b (by omega) (by rw [alloc_next]; omega),
              getObj_alloc_lt h _ b hblt]
          · rw [h4c, List.append_assoc]
            rfl
          · show name = name ∧ _ ∧ _
            refine ⟨rfl, ?_, ?_⟩
            · obtain ⟨flp, resp, hmf, hjf, haf⟩ :=
                FreshFields_matFs (extendT (h.alloc ⟨true, []⟩).1 h.next sfs)
                  ((h.alloc ⟨true, []⟩).1.next) out1 sfs h2ff
              have hmp : matP (extendT (h.alloc ⟨true, []⟩).1 h.next sfs) (flp + 1)
                  (.href h.next) = some (.pobj h.next true resp) := by
                rw [matP_href_succ, h2c', Option.some_bind]
                show (matFs _ flp ([] ++ out1)).map _ = _
                rw [List.nil_append, hmf]
                rfl
              have hfv2 : FreshVal (extendT (h.alloc ⟨true, []⟩).1 h.next sfs) h.next
                  (.href h.next) (.pobj a2 true sfs) := by
                refine ⟨flp + 1, .pobj h.next true resp, hmp, ?_, ?_⟩
                · show JTree.obj resp.toJ = JTree.obj sfs.toJ
                  rw [hjf]
                · intro x hx
                  rw [PTree.addrList] at hx
                  rcases List.mem_cons.mp hx with hx | hx
                  · omega
                  · have hy := haf x hx
                    rw [alloc_next] at hy
                    omega
              refine FreshVal_agree _ _ h.next _ _ h2wf ?_ hfv2
              intro x hxle hxlt
              rw [h4pres x (by omega) (by rw [setField_next]; exact hxlt),
                getObj_setField, if_neg (by omega)]
            · refine FreshFields_mono _ h.next _ out2 rest ?_ h4ff
              rw [setField_next]
              omega

/-- Running `extend(true, this, content)` over a freshly allocated Box
instance whose six own fields are the canonical ones, with the
materialised source Box as the source tree: the original region (all
addresses below `n0`) is untouched, the instance's six fields end up
holding the source's `_seq`, a payload reference to the first clone
(allocated at the pre-call next-fresh address) and the reused
default-tags object, and payload and tags have become fresh deep
copies. -/
theorem extendT_boxCopy (h : Heap) (n0 B bb tg pp tt : Nat) (s0 s1 : String)
    (pfs qfs : PFields)
    (hwf : h.domLtB = true)
    (hB : h.getObj B = some ⟨false, boxBaseFields s1 (.href bb) (.href tg)⟩)
    (htg : h.getObj tg = some ⟨true, []⟩)
    (hbbo : h.getObj bb = some ⟨false, boxBaseFields s0 (.href pp) (.href tt)⟩)
    (hbbn : bb < n0) (hppn : pp < n0) (httn : tt < n0)
    (hpfsa : ∀ x ∈ PFields.addrList pfs, x < n0)
    (hqfsa : ∀ x ∈ PFields.addrList qfs, x < n0)
    (hgoodp : PFields.goodb pfs = true) (hgoodq : PFields.goodb qfs = true)
    (hn0tg : n0 ≤ tg) (htgB : tg < B) :
    (∀ y, y < n0 →
      (extendT h B (.cons "__type__" (.pstr "box") (.cons "_seq" (.pstr s0)
        (.cons "_error" .pnull (.cons "_payload" (.pobj pp true pfs)
        (.cons "_tags" (.pobj tt true qfs)
        (.cons "_results" .pnull .nil))))))).getObj y = h.getObj y) ∧
    (extendT h B (.cons "__type__" (.pstr "box") (.cons "_seq" (.pstr s0)
      (.cons "_error" .pnull (.cons "_payload" (.pobj pp true pfs)
      (.cons "_tags" (.pobj tt true qfs)
      (.cons "_results" .pnull .nil))))))).getObj B =
      some ⟨false, boxBaseFields s0 (.href h.next) (.href tg)⟩ ∧
    FreshVal (extendT h B (.cons "__type__" (.pstr "box") (.cons "_seq" (.pstr s0)
      (.cons "_error" .pnull (.cons "_payload" (.pobj pp true pfs)
      (.cons "_tags" (.pobj tt true qfs)
      (.cons "_results" .pnull .nil))))))) n0 (.href h.next) (.pobj pp true pfs) ∧
    FreshVal (extendT h B (.cons "__type__" (.pstr "box") (.cons "_seq" (.pstr s0)
      (.cons "_error" .pnull (.cons "_payload" (.pobj pp true pfs)
      (.cons "_tags" (.pobj tt true qfs)
      (.cons "_results" .pnull .nil))))))) n0 (.href tg) (.pobj tt true qfs) := by
  have hBlt : B < h.next := h.getObj_lt B _ hwf hB
  have htglt : tg < h.next := h.getObj_lt tg _ hwf htg
  have hn0N : n0 ≤ h.next := le_trans hn0tg (le_of_lt htglt)
  have e1 : extendT h B (.cons "__type__" (.pstr "box") (.cons "_seq" (.pstr s0)
      (.cons "_error" .pnull (.cons "_payload" (.pobj pp true pfs)
      (.cons "_tags" (.pobj tt true qfs) (.cons "_results" .pnull .nil)))))) =
      extendT (h.setField B "__type__" (.hstr "box")) B (.cons "_seq" (.pstr s0)
        (.cons "_error" .pnull (.cons "_payload" (.pobj pp true pfs)
        (.cons "_tags" (.pobj tt true qfs) (.cons "_results" .pnull .nil))))) := by
    rw [extendT_cons, if_neg (by simp [copyIsTarget])]
    rfl
  have e2 : extendT (h.setField B "__type__" (.hstr "box")) B (.cons "_seq" (.pstr s0)
      (.cons "_error" .pnull (.cons "_payload" (.pobj pp true pfs)
      (.cons "_tags" (.pobj tt true qfs) (.cons "_results" .pnull .nil))))) =
      extendT ((h.setField B "__type__" (.hstr "box")).setField B "_seq" (.hstr s0)) B
        (.cons "_error" .pnull (.cons "_payload" (.pobj pp true pfs)
        (.cons "_tags" (.pobj tt true qfs) (.cons "_results" .pnull .nil)))) := by
    rw [extendT_cons, if_neg (by simp [copyIsTarget])]
    rfl
  have e3 : extendT ((h.setField B "__type__" (.hstr "box")).setField B "_seq"
      (.hstr s0)) B (.cons "_error" .pnull (.cons "_payload" (.pobj pp true pfs)
      (.cons "_tags" (.pobj tt true qfs) (.cons "_results" .pnull .nil)))) =
      extendT (((h.setField B "__type__" (.hstr "box")).setField B "_seq"
        (.hstr s0)).setField B "_error" .hnull) B
        (.cons "_payload" (.pobj pp true pfs)
        (.cons "_tags" (.pobj tt true qfs) (.cons "_results" .pnull .nil))) := by
    rw [extendT_cons, if_neg (by simp [copyIsTarget])]
    rfl
  have hCwf : (((h.setField B "__type__" (.hstr "box")).setField B "_seq"
      (.hstr s0)).setField B "_error" .hnull).domLtB = true :=
    domLtB_setField _ _ _ _ (domLtB_setField _ _ _ _ (domLtB_setField _ _ _ _ hwf))
  have hCB : (((h.setField B "__type__" (.hstr "box")).setField B "_seq"
      (.hstr s0)).setField B "_error" .hnull).getObj B =
      some ⟨false, [("__type__", .hstr "box"), ("_seq", .hstr s0), ("_error", .hnull),
        ("_payload", .href bb), ("_tags", .href tg), ("_results", .hnull)]⟩ := by
    rw [getObj_setField, if_pos rfl, getObj_setField, if_pos rfl,
      getObj_setField, if_pos rfl, hB]
    rfl
  have hsrc4 : (((h.setField B "__type__" (.hstr "box")).setField B "_seq"
      (.hstr s0)).setField B "_error" .hnull).getField B "_payload" =
      some (.href bb) := by
    simp only [Heap.getField, hCB]
    rfl
  have hbbC : (((h.setField B "__type__" (.hstr "box")).setField B "_seq"
      (.hstr s0)).setField B "_error" .hnull).getObj bb =
      some ⟨false, boxBaseFields s0 (.href pp) (.href tt)⟩ := by
    rw [getObj_setField, if_neg (by omega), getObj_setField, if_neg (by omega),
      getObj_setField, if_neg (by omega)]
    exact hbbo
  have hgd4 : ((((h.setField B "__type__" (.hstr "box")).setField B "_seq"
      (.hstr s0)).setField B "_error" .hnull).getField B "_payload").getD .hundefined =
      .href bb := by
    rw [hsrc4]
    rfl
  have hclone4 : cloneFor (((h.setField B "__type__" (.hstr "box")).setField B "_seq"
      (.hstr s0)).setField B "_error" .hnull) (((((h.setField B "__type__"
      (.hstr "box")).setField B "_seq" (.hstr s0)).setField B "_error"
      .hnull).getField B "_payload").getD .hundefined) =
      (((h.setField B "__type__" (.hstr "box")).setField B "_seq"
        (.hstr s0)).setField B "_error" .hnull).alloc ⟨true, []⟩ := by
    rw [hgd4]
    simp [cloneFor, hbbC]
  have e4 : extendT (((h.setField B "__type__" (.hstr "box")).setField B "_seq"
      (.hstr s0)).setField B "_error" .hnull) B
      (.cons "_payload" (.pobj pp true pfs)
      (.cons "_tags" (.pobj tt true qfs) (.cons "_results" .pnull .nil))) =
      extendT ((extendT ((((h.setField B "__type__" (.hstr "box")).setField B "_seq"
        (.hstr s0)).setField B "_error" .hnull).alloc ⟨true, []⟩).1 h.next
        pfs).setField B "_payload" (.href h.next)) B
        (.cons "_tags" (.pobj tt true qfs) (.cons "_results" .pnull .nil)) := by
    rw [extendT_cons, if_neg (by simp [copyIsTarget]; omega), hclone4]
    rfl
  obtain ⟨hEwf, hEle, hEpres, outP, hEc1, hEff⟩ :=
    extend_fresh_spec pfs ((((h.setField B "__type__" (.hstr "box")).setField B "_seq"
      (.hstr s0)).setField B "_error" .hnull).alloc ⟨true, []⟩).1 h.next [] n0
      (domLtB_alloc _ _ hCwf) (getObj_alloc_self _ _ hCwf) hn0N
      (by rw [alloc_next, setField_next, setField_next, setField_next]; omega)
      hpfsa hgoodp (namesAbsent_nil pfs)
  have hEle' : h.next + 1 ≤ (extendT ((((h.setField B "__type__"
      (.hstr "box")).setField B "_seq" (.hstr s0)).setField B "_error"
      .hnull).alloc ⟨true, []⟩).1 h.next pfs).next := by
    rw [alloc_next, setField_next, setField_next, setField_next] at hEle
    exact hEle
  have hEB : (extendT ((((h.setField B "__type__" (.hstr "box")).setField B "_seq"
      (.hstr s0)).setField B "_error" .hnull).alloc ⟨true, []⟩).1 h.next
      pfs).getObj B =
      some ⟨false, [("__type__", .hstr "box"), ("_seq", .hstr s0), ("_error", .hnull),
        ("_payload", .href bb), ("_tags", .href tg), ("_results", .hnull)]⟩ := by
    rw [hEpres B (by omega)
        (by rw [alloc_next, setField_next, setField_next, setField_next]; omega),
      getObj_alloc_lt _ _ B
        (by rw [setField_next, setField_next, setField_next]; omega)]
    exact hCB
  have hFB : ((extendT ((((h.setField B "__type__" (.hstr "box")).setField B "_seq"
      (.hstr s0)).setField B "_error" .hnull).alloc ⟨true, []⟩).1 h.next
      pfs).setField B "_payload" (.href h.next)).getObj B =
      some ⟨false, boxBaseFields s0 (.href h.next) (.href tg)⟩ := by
    rw [getObj_setField, if_pos rfl, hEB]
    rfl
  have hsrc5 : ((extendT ((((h.setField B "__type__" (.hstr "box")).setField B "_seq"
      (.hstr s0)).setField B "_error" .hnull).alloc ⟨true, []⟩).1 h.next
      pfs).setField B "_payload" (.href h.next)).getField B "_tags" =
      some (.href tg) := by
    simp only [Heap.getField, hFB]
    rfl
  have htgF : ((extendT ((((h.setField B "__type__" (.hstr "box")).setField B "_seq"
      (.hstr s0)).setField B "_error" .hnull).alloc ⟨true, []⟩).1 h.next
      pfs).setField B "_payload" (.href h.next)).getObj tg = some ⟨true, []⟩ := by
    rw [getObj_setField, if_neg (by omega),
      hEpres tg (by omega)
        (by rw [alloc_next, setField_next, setField_next, setField_next]; omega),
      getObj_alloc_lt _ _ tg
        (by rw [setField_next, setField_next, setField_next]; omega),
      getObj_setField, if_neg (by omega), getObj_setField, if_neg (by omega),
      getObj_setField, if_neg (by omega)]
    exact htg
  have hclone5 : cloneFor ((extendT ((((h.setField B "__type__"
      (.hstr "box")).setField B "_seq" (.hstr s0)).setField B "_error"
      .hnull).alloc ⟨true, []⟩).1 h.next pfs).setField B "_payload" (.href h.next))
      (((((extendT ((((h.setField B "__type__" (.hstr "box")).setField B "_seq"
      (.hstr s0)).setField B "_error" .hnull).alloc ⟨true, []⟩).1 h.next
      pfs).setField B "_payload" (.href h.next)).getField B "_tags")).getD .hundefined) =
      ((extendT ((((h.setField B "__type__" (.hstr "box")).setField B "_seq"
        (.hstr s0)).setField B "_error" .hnull).alloc ⟨true, []⟩).1 h.next
        pfs).setField B "_payload" (.href h.next), tg) := by
    rw [hsrc5]
    simp [cloneFor, htgF]
  have e5 : extendT ((extendT ((((h.setField B "__type__"
      (.hstr "box")).setField B "_seq" (.hstr s0)).setField B "_error"
      .hnull).alloc ⟨true, []⟩).1 h.next pfs).setField B "_payload" (.href h.next)) B
      (.cons "_tags" (.pobj tt true qfs) (.cons "_results" .pnull .nil)) =
      extendT ((extendT ((extendT ((((h.setField B "__type__"
        (.hstr "box")).setField B "_seq" (.hstr s0)).setField B "_error"
        .hnull).alloc ⟨true, []⟩).1 h.next pfs).setField B "_payload"
        (.href h.next)) tg qfs).setField B "_tags" (.href tg)) B
        (.cons "_results" .pnull .nil) := by
    rw [extendT_cons, if_neg (by simp [copyIsTarget]; omega), hclone5]
  obtain ⟨hGwf, hGle, hGpres, outQ, hGtg, hGff⟩ :=
    extend_fresh_spec qfs ((extendT ((((h.setField B "__type__"
      (.hstr "box")).setField B "_seq" (.hstr s0)).setField B "_error"
      .hnull).alloc ⟨true, []⟩).1 h.next pfs).setField B "_payload" (.href h.next))
      tg [] n0 (domLtB_setField _ _ _ _ hEwf) htgF hn0tg
      (by rw [setField_next]; omega) hqfsa hgoodq (namesAbsent_nil qfs)
  have hGB : (extendT ((extendT ((((h.setField B "__type__"
      (.hstr "box")).setField B "_seq" (.hstr s0)).setField B "_error"
      .hnull).alloc ⟨true, []⟩).1 h.next pfs).setField B "_payload" (.href h.next))
      tg qfs).getObj B = some ⟨false, boxBaseFields s0 (.href h.next) (.href tg)⟩ := by
    rw [hGpres B (by omega) (by rw [setField_next]; omega)]
    exact hFB
  have hHB : ((extendT ((extendT ((((h.setField B "__type__"
      (.hstr "box")).setField B "_seq" (.hstr s0)).setField B "_error"
      .hnull).alloc ⟨true, []⟩).1 h.next pfs).setField B "_payload" (.href h.next))
      tg qfs).setField B "_tags" (.href tg)).getObj B =
      some ⟨false, boxBaseFields s0 (.href h.next) (.href tg)⟩ := by
    rw [getObj_setField, if_pos rfl, hGB]
    rfl
  have e6 : extendT ((extendT ((extendT ((((h.setField B "__type__"
      (.hstr "box")).setField B "_seq" (.hstr s0)).setField B "_error"
      .hnull).alloc ⟨true, []⟩).1 h.next pfs).setField B "_payload"
      (.href h.next)) tg qfs).setField B "_tags" (.href tg)) B
      (.cons "_results" .pnull .nil) =
      ((extendT ((extendT ((((h.setField B "__type__"
        (.hstr "box")).setField B "_seq" (.hstr s0)).setField B "_error"
        .hnull).alloc ⟨true, []⟩).1 h.next pfs).setField B "_payload"
        (.href h.next)) tg qfs).setField B "_tags" (.href tg)).setField B
        "_results" .hnull := by
    rw [extendT_cons, if_neg (by simp [copyIsTarget])]
    rfl
  rw [e1, e2, e3, e4, e5, e6]
  refine ⟨?_, ?_, ?_, ?_⟩
  · intro y hy
    rw [getObj_setField, if_neg (by omega), getObj_setField, if_neg (by omega),
      hGpres y (by omega) (by rw [setField_next]; omega),
      getObj_setField, if_neg (by omega),
      hEpres y (by omega)
        (by rw [alloc_next, setField_next, setField_next, setField_next]; omega),
      getObj_alloc_lt _ _ y
        (by rw [setField_next, setField_next, setField_next]; omega),
      getObj_setField, if_neg (by omega), getObj_setField, if_neg (by omega),
      getObj_setField, if_neg (by omega)]
  · rw [getObj_setField, if_pos rfl, hHB]
    rfl
  · obtain ⟨flp, resp, hmfp, hjfp, hafp⟩ :=
      FreshFields_matFs _ _ outP pfs hEff
    have hafp' : ∀ x ∈ PFields.addrList resp, h.next + 1 ≤ x := by
      intro x hx
      have hz := hafp x hx
      rw [alloc_next, setField_next, setField_next, setField_next] at hz
      exact hz
    have hmp : matP (extendT ((((h.setField B "__type__"
        (.hstr "box")).setField B "_seq" (.hstr s0)).setField B "_error"
        .hnull).alloc ⟨true, []⟩).1 h.next pfs) (flp + 1) (.href h.next) =
        some (.pobj h.next true resp) := by
      rw [matP_href_succ, hEc1, Option.some_bind]
      show (matFs _ flp ([] ++ outP)).map _ = _
      rw [List.nil_append, hmfp]
      rfl
    have hrespdom : ∀ x ∈ PFields.addrList resp, x < (extendT ((((h.setField B
        "__type__" (.hstr "box")).setField B "_seq" (.hstr s0)).setField B "_error"
        .hnull).alloc ⟨true, []⟩).1 h.next pfs).next := by
      intro x hx
      obtain ⟨o, ho⟩ := matFs_addrs_dom _ flp outP resp hmfp x hx
      exact Heap.getObj_lt _ x o hEwf ho
    have hagP : ∀ a ∈ PTree.addrList (.pobj h.next true resp),
        (((extendT ((extendT ((((h.setField B "__type__"
          (.hstr "box")).setField B "_seq" (.hstr s0)).setField B "_error"
          .hnull).alloc ⟨true, []⟩).1 h.next pfs).setField B "_payload"
          (.href h.next)) tg qfs).setField B "_tags" (.href tg)).setField B
          "_results" .hnull).getObj a =
        (extendT ((((h.setField B "__type__" (.hstr "box")).setField B "_seq"
          (.hstr s0)).setField B "_error" .hnull).alloc ⟨true, []⟩).1 h.next
          pfs).getObj a := by
      intro a ha
      rw [PTree.addrList] at ha
      have haB : a ≠ B := by
        rcases List.mem_cons.mp ha with hh | ha2
        · omega
        · have := hafp' a ha2
          omega
      have hatg : a ≠ tg := by
        rcases List.mem_cons.mp ha with hh | ha2
        · omega
        · have := hafp' a ha2
          omega
      have halt : a < (extendT ((((h.setField B "__type__"
          (.hstr "box")).setField B "_seq" (.hstr s0)).setField B "_error"
          .hnull).alloc ⟨true, []⟩).1 h.next pfs).next := by
        rcases List.mem_cons.mp ha with hh | ha2
        · omega
        · exact hrespdom a ha2
      rw [getObj_setField, if_neg haB, getObj_setField, if_neg haB,
        hGpres a hatg (by rw [setField_next]; exact halt),
        getObj_setField, if_neg haB]
    refine ⟨flp + 1, .pobj h.next true resp,
      matP_agree_on _ _ (flp + 1) _ _ hmp hagP, ?_, ?_⟩
    · show JTree.obj resp.toJ = JTree.obj pfs.toJ
      rw [hjfp]
    · intro x hx
      rw [PTree.addrList] at hx
      rcases List.mem_cons.mp hx with hh | hx2
      · omega
      · have := hafp' x hx2
        omega
  · obtain ⟨flq, resq, hmfq, hjfq, hafq⟩ :=
      FreshFields_matFs _ _ outQ qfs hGff
    have hafq' : ∀ x ∈ PFields.addrList resq, h.next + 1 ≤ x := by
      intro x hx
      have hz := hafq x hx
      rw [setField_next] at hz
      omega
    have hmq : matP (extendT ((extendT ((((h.setField B "__type__"
        (.hstr "box")).setField B "_seq" (.hstr s0)).setField B "_error"
        .hnull).alloc ⟨true, []⟩).1 h.next pfs).setField B "_payload"
        (.href h.next)) tg qfs) (flq + 1) (.href tg) =
        some (.pobj tg true resq) := by
      rw [matP_href_succ, hGtg, Option.some_bind]
      show (matFs _ flq ([] ++ outQ)).map _ = _
      rw [List.nil_append, hmfq]
      rfl
    have hagQ : ∀ a ∈ PTree.addrList (.pobj tg true resq),
        (((extendT ((extendT ((((h.setField B "__type__"
          (.hstr "box")).setField B "_seq" (.hstr s0)).setField B "_error"
          .hnull).alloc ⟨true, []⟩).1 h.next pfs).setField B "_payload"
          (.href h.next)) tg qfs).setField B "_tags" (.href tg)).setField B
          "_results" .hnull).getObj a =
        (extendT ((extendT ((((h.setField B "__type__"
          (.hstr "box")).setField B "_seq" (.hstr s0)).setField B "_error"
          .hnull).alloc ⟨true, []⟩).1 h.next pfs).setField B "_payload"
          (.href h.next)) tg qfs).getObj a := by
      intro a ha
      rw [PTree.addrList] at ha
      have haB : a ≠ B := by
        rcases List.mem_cons.mp ha with hh | ha2
        · omega
        · have := hafq' a ha2
          omega
      rw [getObj_setField, if_neg haB, getObj_setField, if_neg haB]
    refine ⟨flq + 1, .pobj tg true resq,
      matP_agree_on _ _ (flq + 1) _ _ hmq hagQ, ?_, ?_⟩
    · show JTree.obj resq.toJ = JTree.obj qfs.toJ
      rw [hjfq]
    · intro x hx
      rw [PTree.addrList] at hx
      rcases List.mem_cons.mp hx with hh | hx2
      · omega
      · have := hafq' x hx2
        omega

/-- C5: for every Box (an instance at `bb` with the constructor's
canonical six own fields, sequence `s0`, and payload and tags that
materialise as plain, well-shaped object trees), constructing a new Box
from it succeeds and yields a deep copy: the new instance's `_seq` is
the original's `s0` (inherited through the deep merge), its payload and
tags materialise to pure trees deep-equal to the original's, through
object addresses that are all fresh (at or above the original heap's
next-fresh address), and there is no aliasing of mutable state —
writing any field of any object in the fresh region, in particular
anywhere inside the copy's nested payload or tags, leaves the
original's payload and tags materialisation exactly unchanged. -/
theorem box_copy_deep_no_alias (h : Heap) (bb pp tt : Nat) (s0 s1 : String)
    (fuel : Nat) (pfs qfs : PFields)
    (hwf : h.domLtB = true)
    (hbb : h.getObj bb = some ⟨false, boxBaseFields s0 (.href pp) (.href tt)⟩)
    (hpt : matP h fuel (.href pp) = some (.pobj pp true pfs))
    (hqt : matP h fuel (.href tt) = some (.pobj tt true qfs))
    (hgoodp : PFields.goodb pfs = true)
    (hgoodq : PFields.goodb qfs = true) :
    ∃ h7 : Heap,
      newBoxH h s1 (.href bb) (fuel + 8) = some (h7, h.next + 1) ∧
      h7.getField (h.next + 1) "_seq" = some (.hstr s0) ∧
      h7.getField (h.next + 1) "_payload" = some (.href (h.next + 2)) ∧
      h7.getField (h.next + 1) "_tags" = some (.href h.next) ∧
      FreshVal h7 h.next (.href (h.next + 2)) (.pobj pp true pfs) ∧
      FreshVal h7 h.next (.href h.next) (.pobj tt true qfs) ∧
      ∀ (x : Nat) (k : String) (w : HVal), h.next ≤ x →
        matP (h7.setField x k w) fuel (.href pp) = some (.pobj pp true pfs) ∧
        matP (h7.setField x k w) fuel (.href tt) = some (.pobj tt true qfs) := by
  have hbblt : bb < h.next := h.getObj_lt bb _ hwf hbb
  have hpplt : pp < h.next := by
    obtain ⟨o, ho⟩ := matP_href_obj h fuel pp _ hpt
    exact h.getObj_lt pp o hwf ho
  have httlt : tt < h.next := by
    obtain ⟨o, ho⟩ := matP_href_obj h fuel tt _ hqt
    exact h.getObj_lt tt o hwf ho
  have haddrP : ∀ x ∈ PFields.addrList pfs, x < h.next := by
    intro x hx
    obtain ⟨o, ho⟩ := matP_addrs_dom h fuel (.href pp) _ hpt x
      (by rw [PTree.addrList]; exact List.mem_cons_of_mem _ hx)
    exact h.getObj_lt x o hwf ho
  have haddrQ : ∀ x ∈ PFields.addrList qfs, x < h.next := by
    intro x hx
    obtain ⟨o, ho⟩ := matP_addrs_dom h fuel (.href tt) _ hqt x
      (by rw [PTree.addrList]; exact List.mem_cons_of_mem _ hx)
    exact h.getObj_lt x o hwf ho
  have h1wf : (h.alloc ⟨true, []⟩).1.domLtB = true := domLtB_alloc h _ hwf
  have h2wf : ((h.alloc ⟨true, []⟩).1.alloc ⟨false, boxBaseFields s1 (.href bb)
      (.href h.next)⟩).1.domLtB = true := domLtB_alloc _ _ h1wf
  have hpres2 : ∀ y, y < h.next → ((h.alloc ⟨true, []⟩).1.alloc
      ⟨false, boxBaseFields s1 (.href bb) (.href h.next)⟩).1.getObj y =
      h.getObj y := by
    intro y hy
    rw [getObj_alloc_lt _ _ y (by rw [alloc_next]; omega),
      getObj_alloc_lt h _ y hy]
  have htg2 : ((h.alloc ⟨true, []⟩).1.alloc ⟨false, boxBaseFields s1 (.href bb)
      (.href h.next)⟩).1.getObj h.next = some ⟨true, []⟩ := by
    rw [getObj_alloc_lt _ _ h.next (by rw [alloc_next]; omega)]
    exact getObj_alloc_self h _ hwf
  have hb2 : ((h.alloc ⟨true, []⟩).1.alloc ⟨false, boxBaseFields s1 (.href bb)
      (.href h.next)⟩).1.getObj (h.next + 1) =
      some ⟨false, boxBaseFields s1 (.href bb) (.href h.next)⟩ :=
    getObj_alloc_self (h.alloc ⟨true, []⟩).1 _ h1wf
  have hbb2 : ((h.alloc ⟨true, []⟩).1.alloc ⟨false, boxBaseFields s1 (.href bb)
      (.href h.next)⟩).1.getObj bb =
      some ⟨false, boxBaseFields s0 (.href pp) (.href tt)⟩ := by
    rw [hpres2 bb hbblt]
    exact hbb
  have hisbox : ((h.alloc ⟨true, []⟩).1.alloc ⟨false, boxBaseFields s1 (.href bb)
      (.href h.next)⟩).1.isBoxV (.href bb) = true := by
    simp only [Heap.isBoxV, Heap.getField, hbb2]
    simp [boxBaseFields, lookupHF]
  have hagg : ∀ x o, h.getObj x = some o → ((h.alloc ⟨true, []⟩).1.alloc
      ⟨false, boxBaseFields s1 (.href bb) (.href h.next)⟩).1.getObj x = some o := by
    intro x o hx
    rw [hpres2 x (h.getObj_lt x o hwf hx)]
    exact hx
  have hpt2 : matP ((h.alloc ⟨true, []⟩).1.alloc ⟨false, boxBaseFields s1 (.href bb)
      (.href h.next)⟩).1 fuel (.href pp) = some (.pobj pp true pfs) :=
    matP_agree h _ hagg fuel _ _ hpt
  have hqt2 : matP ((h.alloc ⟨true, []⟩).1.alloc ⟨false, boxBaseFields s1 (.href bb)
      (.href h.next)⟩).1 fuel (.href tt) = some (.pobj tt true qfs) :=
    matP_agree h _ hagg fuel _ _ hqt
  have hmatbb : matP ((h.alloc ⟨true, []⟩).1.alloc ⟨false, boxBaseFields s1
      (.href bb) (.href h.next)⟩).1 (fuel + 8) (.href bb) =
      some (.pobj bb false (.cons "__type__" (.pstr "box") (.cons "_seq" (.pstr s0)
        (.cons "_error" .pnull (.cons "_payload" (.pobj pp true pfs)
        (.cons "_tags" (.pobj tt true qfs)
        (.cons "_results" .pnull .nil))))))) := by
    rw [show fuel + 8 = (fuel + 7) + 1 from rfl, matP_href_succ, hbb2,
      Option.some_bind]
    show (matFs _ (fuel + 7) (boxBaseFields s0 (.href pp) (.href tt))).map _ = _
    rw [matFs_boxBase _ fuel s0 (.href pp) (.href tt) _ _ hpt2 hqt2]
    rfl
  have hnew : newBoxH h s1 (.href bb) (fuel + 8) =
      some (extendT ((h.alloc ⟨true, []⟩).1.alloc ⟨false, boxBaseFields s1
        (.href bb) (.href h.next)⟩).1 (h.next + 1)
        (.cons "__type__" (.pstr "box") (.cons "_seq" (.pstr s0)
        (.cons "_error" .pnull (.cons "_payload" (.pobj pp true pfs)
        (.cons "_tags" (.pobj tt true qfs) (.cons "_results" .pnull .nil)))))),
        h.next + 1) := by
    show mkBoxH (h.alloc ⟨true, []⟩).1 s1 (.href bb) (.href h.next) (fuel + 8) = _
    rw [mkBoxH_box_branch (h.alloc ⟨true, []⟩).1 s1 (.href bb) (.href h.next)
      (fuel + 8) (.cons "__type__" (.pstr "box") (.cons "_seq" (.pstr s0)
      (.cons "_error" .pnull (.cons "_payload" (.pobj pp true pfs)
      (.cons "_tags" (.pobj tt true qfs) (.cons "_results" .pnull .nil))))))
      bb false hisbox hmatbb]
    rfl
  obtain ⟨horig, hXB, hfvP, hfvQ⟩ :=
    extendT_boxCopy ((h.alloc ⟨true, []⟩).1.alloc ⟨false, boxBaseFields s1
      (.href bb) (.href h.next)⟩).1 h.next (h.next + 1) bb h.next pp tt s0 s1
      pfs qfs h2wf hb2 htg2 hbb2 hbblt hpplt httlt haddrP haddrQ hgoodp hgoodq
      (le_refl _) (by omega)
  refine ⟨extendT ((h.alloc ⟨true, []⟩).1.alloc ⟨false, boxBaseFields s1
      (.href bb) (.href h.next)⟩).1 (h.next + 1)
      (.cons "__type__" (.pstr "box") (.cons "_seq" (.pstr s0)
      (.cons "_error" .pnull (.cons "_payload" (.pobj pp true pfs)
      (.cons "_tags" (.pobj tt true qfs) (.cons "_results" .pnull .nil)))))),
    hnew, ?_, ?_, ?_, hfvP, hfvQ, ?_⟩
  · simp only [Heap.getField, hXB]
    rfl
  · simp only [Heap.getField, hXB]
    rfl
  · simp only [Heap.getField, hXB]
    rfl
  · intro x k w hx
    constructor
    · refine matP_agree_on h _ fuel _ _ hpt ?_
      intro a ha
      have halt : a < h.next := by
        obtain ⟨o, ho⟩ := matP_addrs_dom h fuel (.href pp) _ hpt a ha
        exact h.getObj_lt a o hwf ho
      rw [getObj_setField, if_neg (by omega), horig a halt, hpres2 a halt]
    · refine matP_agree_on h _ fuel _ _ hqt ?_
      intro a ha
      have halt : a < h.next := by
        obtain ⟨o, ho⟩ := matP_addrs_dom h fuel (.href tt) _ hqt a ha
        exact h.getObj_lt a o hwf ho
      rw [getObj_setField, if_neg (by omega), horig a halt, hpres2 a halt]

theorem box_copy_deep_no_alias_witness :
    ∃ h7 : Heap,
      newBoxH boxCopyFixture "sq1" (.href 2) (3 + 8) = some (h7, 4) ∧
      h7.getField 4 "_seq" = some (.hstr "sq0") ∧
      h7.getField 4 "_payload" = some (.href 5) ∧
      h7.getField 4 "_tags" = some (.href 3) ∧
      FreshVal h7 3 (.href 5) (.pobj 0 true (.cons "a" (.pnum 7) .nil)) ∧
      FreshVal h7 3 (.href 3) (.pobj 1 true .nil) ∧
      ∀ (x : Nat) (k : String) (w : HVal), 3 ≤ x →
        matP (h7.setField x k w) 3 (.href 0) =
          some (.pobj 0 true (.cons "a" (.pnum 7) .nil)) ∧
        matP (h7.setField x k w) 3 (.href 1) = some (.pobj 1 true .nil) :=
  box_copy_deep_no_alias boxCopyFixture 2 0 1 "sq0" "sq1" 3
    (.cons "a" (.pnum 7) .nil) .nil (by decide) (by decide) (by decide) (by decide)
    (by decide) (by decide)

theorem addTag_glossary_layering_witness :
    glossFixture.getTag "glossary" = .obj (.cons "x" (.vstr "y") .nil) ∧
    glossFixture.addTag "glossary" (.obj (.cons "w" (.vstr "x") .nil)) =
      { glossFixture with
          tags := setOwnField glossFixture.tags "glossary"
            (.obj (.cons "w" (.vstr "y") .nil)) } := by
  refine ⟨by decide, ?_⟩
  have h := (addTag_glossary_layering glossFixture (.cons "x" (.vstr "y") .nil)
    (.cons "w" (.vstr "x") .nil) (by decide)).1
  rw [h]
  decide

end I11e
